import Mathlib

/-!
# Verification of the websitedownloader archive pipeline

A shallow embedding, in Lean 4, of the URL-discovery, content-acquisition and
link-rewriting stages of the `websitedownloader` repository, together with
proofs and refutations of the behavioural properties stated in its design
specification.

Strings from the Python source are modelled as `List Char`; machine floats used
for delays are modelled as rationals (all delay arithmetic in the source is
exact on the dyadic values involved); the filesystem and the network are
modelled as explicit state threaded through the functions.
-/

namespace WebsiteDownloader

/-! ## Sitemap discovery (`src/crawler.py`, `WebCrawler.crawl_sitemap`)

A fetched sitemap document is either a parse/transport failure (the code
returns `[]` for those), a sitemap index whose `<sitemap><loc>` entries have
already been resolved to their child documents, or a regular `<urlset>` whose
`<url><loc>` text nodes may be missing (`None` in Python, skipped by the
code). -/

inductive SitemapDoc : Type where
  | fetchError : SitemapDoc
  | docIndex (children : List SitemapDoc) : SitemapDoc
  | urlset (locs : List (Option (List Char))) : SitemapDoc

theorem sizeOf_take_le {α : Type} [SizeOf α] (n : Nat) (l : List α) :
    sizeOf (l.take n) ≤ sizeOf l := by
  induction l generalizing n with
  | nil => simp [List.take]
  | cons a t ih =>
    cases n with
    | zero => simp; omega
    | succ m =>
      simp only [List.take_succ_cons, List.cons.sizeOf_spec]
      have := ih m
      omega

/-- The `<urlset>` loop of `crawl_sitemap`: before appending each URL the code
checks `len(discovered_urls) >= self.max_pages` and breaks; empty `<loc>`
texts are skipped. -/
def collectUrls (maxPages : Nat) : List (Option (List Char)) → List (List Char) →
    List (List Char)
  | [], acc => acc
  | u :: us, acc =>
    if maxPages ≤ acc.length then acc
    else match u with
      | none => collectUrls maxPages us acc
      | some s => collectUrls maxPages us (acc ++ [s])

mutual

/-- `WebCrawler.crawl_sitemap`.  For a sitemap index the code first collects at
most `max_pages` child sitemap URLs, then crawls each child in turn, breaking
only *after* extending `discovered_urls` with the child's full result.  Each
recursive call starts from a fresh empty accumulator bounded by the same
`max_pages`. -/
def crawlSitemap (maxPages : Nat) : SitemapDoc → List (List Char)
  | .fetchError => []
  | .urlset locs => collectUrls maxPages locs []
  | .docIndex children => crawlSitemapChildren maxPages (children.take maxPages) []
termination_by doc => sizeOf doc
decreasing_by
  simp only [SitemapDoc.docIndex.sizeOf_spec]
  have := sizeOf_take_le maxPages children
  omega

/-- The child loop of the sitemap-index branch: `discovered_urls.extend(...)`
followed by the `len(discovered_urls) >= self.max_pages` break. -/
def crawlSitemapChildren (maxPages : Nat) : List SitemapDoc → List (List Char) →
    List (List Char)
  | [], acc => acc
  | c :: cs, acc =>
    let acc2 := acc ++ crawlSitemap maxPages c
    if maxPages ≤ acc2.length then acc2 else crawlSitemapChildren maxPages cs acc2
termination_by cs _ => sizeOf cs
decreasing_by
  · simp only [List.cons.sizeOf_spec]; omega
  · simp only [List.cons.sizeOf_spec]; omega

end

/-- The spec scenario: a sitemap index referencing two child sitemaps with
three URLs each. -/
def twoChildIndex : SitemapDoc :=
  .docIndex
    [ .urlset [some "a1".data, some "a2".data, some "a3".data],
      .urlset [some "b1".data, some "b2".data, some "b3".data] ]

theorem collectUrls_length_le (mp : Nat) (us : List (Option (List Char)))
    (acc : List (List Char)) (hacc : acc.length ≤ mp) :
    (collectUrls mp us acc).length ≤ mp := by
  induction us generalizing acc with
  | nil => simpa [collectUrls] using hacc
  | cons u us ih =>
    rw [collectUrls.eq_def]
    by_cases hstop : mp ≤ acc.length
    · simpa [hstop] using hacc
    · simp only [hstop, if_false]
      match u with
      | none => exact ih acc hacc
      | some s =>
        apply ih
        simp only [List.length_append, List.length_cons, List.length_nil]
        omega

theorem crawlSitemapChildren_length_le (mp : Nat) (cs : List SitemapDoc)
    (acc : List (List Char))
    (hcs : ∀ c ∈ cs, (crawlSitemap mp c).length ≤ mp)
    (hacc : acc.length < mp) :
    (crawlSitemapChildren mp cs acc).length ≤ (mp - 1) + mp := by
  induction cs generalizing acc with
  | nil =>
    rw [crawlSitemapChildren]
    omega
  | cons c cs ih =>
    rw [crawlSitemapChildren]
    have hc := hcs c (List.mem_cons_self c cs)
    by_cases hstop : mp ≤ (acc ++ crawlSitemap mp c).length
    · simp only [hstop, if_true]
      simp only [List.length_append]
      omega
    · simp only [hstop, if_false]
      exact ih _ (fun d hd => hcs d (List.mem_cons_of_mem c hd)) (by omega)

/-- C1: the claim that, for a sitemap index referencing two child sitemaps with
3 URLs each and `max_pages = 4`, `crawl_sitemap` stops after collecting 4 URLs
total, is false: the code checks the bound only *after* extending the
accumulator with a child's full result, so it collects all 6 URLs. -/
theorem c1_sitemap_cap_counterexample :
    (crawlSitemap 4 twoChildIndex).length = 6 ∧
      (crawlSitemap 4 twoChildIndex).length ≠ 4 := by
  have h : (crawlSitemap 4 twoChildIndex).length = 6 := by
    simp [crawlSitemap, crawlSitemapChildren, collectUrls, twoChildIndex]
  exact ⟨h, by omega⟩

/-- C1 (amended): the `max_pages` bound is enforced inside each single
`<urlset>` (checked before each append), but across a sitemap index it is
checked only *after* each recursive call, so the total may overshoot: for an
index of plain url-sets the total is at most `(max_pages - 1) + max_pages`,
and in the spec's scenario (two children with 3 URLs each, `max_pages = 4`)
all 6 URLs are collected. -/
theorem c1_sitemap_cap_amended :
    (∀ mp locs, (crawlSitemap mp (.urlset locs)).length ≤ mp) ∧
    (∀ mp (ls : List (List (Option (List Char)))),
        (crawlSitemap mp (.docIndex (ls.map .urlset))).length ≤ 2 * mp - 1) ∧
    (crawlSitemap 4 twoChildIndex).length = 6 := by
  refine ⟨?_, ?_, by simp [crawlSitemap, crawlSitemapChildren, collectUrls, twoChildIndex]⟩
  · intro mp locs
    simp only [crawlSitemap]
    exact collectUrls_length_le mp locs [] (by simp)
  · intro mp ls
    rcases Nat.eq_zero_or_pos mp with hmp | hmp
    · subst hmp
      simp [crawlSitemap, crawlSitemapChildren]
    · simp only [crawlSitemap]
      have h := crawlSitemapChildren_length_le mp ((ls.map .urlset).take mp) []
        (fun c hc => by
          rcases List.mem_map.mp (List.take_subset _ _ hc) with ⟨l, _, rfl⟩
          simp only [crawlSitemap]
          exact collectUrls_length_le mp l [] (by simp))
        (by simpa using hmp)
      omega

/-! ## URL handling (`urllib.parse` as used by the source)

Python strings are modelled as `List Char`.  `urlparse` is modelled for the
URL shapes the source manipulates: scheme, netloc (after `//`), path, query
(after `?`), fragment (after `#`).  The `params` field (`;`) is not modelled;
none of the code under verification reads it. -/

abbrev Str := List Char

/-- Split at the first occurrence of `sep`: returns the part before it and the
part after it (the separator dropped); if `sep` does not occur, returns the
whole input and `[]`. -/
def splitAtFirst (sep : Char) : Str → Str × Str
  | [] => ([], [])
  | c :: rest =>
    if c = sep then ([], rest)
    else
      let p := splitAtFirst sep rest
      (c :: p.1, p.2)

/-- Characters allowed in a URL scheme after the leading letter. -/
def isSchemeChar (c : Char) : Bool :=
  c.isAlphanum || c = '+' || c = '-' || c = '.'

/-- Extract a leading `scheme:` if present (first char a letter, all chars
scheme characters, terminated by `:`); returns the lower-cased scheme and the
remainder, or `([], s)` when there is none. -/
def extractScheme (s : Str) : Str × Str :=
  match s.takeWhile (fun c => isSchemeChar c),
      s.drop (s.takeWhile (fun c => isSchemeChar c)).length with
  | c :: cs, ':' :: rest =>
    if c.isAlpha then ((c :: cs).map Char.toLower, rest) else ([], s)
  | _, _ => ([], s)

structure UrlParts where
  scheme : Str
  netloc : Str
  path : Str
  query : Str
  fragment : Str
deriving DecidableEq, Repr

/-- The netloc of the post-scheme part `r1`: present only after a leading
`//`, running up to the first `/`, `?` or `#`. -/
def netlocOf (r1 : Str) : Str :=
  if r1.take 2 = ['/', '/'] then
    (r1.drop 2).takeWhile (fun c => ¬ (c = '/' ∨ c = '?' ∨ c = '#'))
  else []

/-- What remains of the post-scheme part `r1` once the netloc is removed. -/
def afterNetloc (r1 : Str) : Str :=
  if r1.take 2 = ['/', '/'] then (r1.drop 2).drop (netlocOf r1).length else r1

/-- `urllib.parse.urlparse` (scheme / netloc / path / query / fragment). -/
def parseUrl (s : Str) : UrlParts :=
  ⟨(extractScheme s).1,
   netlocOf (extractScheme s).2,
   (splitAtFirst '?' (splitAtFirst '#' (afterNetloc (extractScheme s).2)).1).1,
   (splitAtFirst '?' (splitAtFirst '#' (afterNetloc (extractScheme s).2)).1).2,
   (splitAtFirst '#' (afterNetloc (extractScheme s).2)).2⟩

/-- `f"{parsed.scheme}://{parsed.netloc}"` — the crawl-scope prefix. -/
def schemeNetloc (p : UrlParts) : Str :=
  p.scheme ++ [':', '/', '/'] ++ p.netloc

/-- Query-stripping as done before enqueueing in `WebCrawler.crawl`:
`f"{parsed.scheme}://{parsed.netloc}{parsed.path}"` when a query is present,
the URL unchanged otherwise. -/
def stripQueryUrl (u : Str) : Str :=
  if (parseUrl u).query = [] then u
  else schemeNetloc (parseUrl u) ++ (parseUrl u).path

/-- The directory part of a URL path / POSIX path: everything up to and
including the last `/` (empty when there is no `/`). -/
def dirPartOf (s : Str) : Str :=
  (s.reverse.dropWhile (fun c => c ≠ '/')).reverse

/-- `urllib.parse.urljoin`, modelled for the href shapes the crawler meets:
absolute URLs, protocol-relative `//…`, root-relative `/…`, empty, and plain
relative references (resolved against the base URL's directory; `..` segments
are not normalised, which the verified properties never rely on). -/
def urljoin (base href : Str) : Str :=
  let bp := parseUrl base
  if (parseUrl href).scheme ≠ [] then href
  else if href.take 2 = ['/', '/'] then bp.scheme ++ ':' :: href
  else if href.take 1 = ['/'] then schemeNetloc bp ++ href
  else if href = [] then base
  else schemeNetloc bp ++ dirPartOf bp.path ++ href

/-! ## Recursive crawl (`src/crawler.py`, `WebCrawler.crawl`) -/

/-- Outcome of fetching one page during a crawl: a transport error (caught and
logged, the page skipped), a response whose `Content-Type` lacks `text/html`,
or an HTML page carrying its anchors' `href` values in document order. -/
inductive CrawlFetch : Type where
  | fetchError : CrawlFetch
  | nonHtml : CrawlFetch
  | html (hrefs : List Str) : CrawlFetch

structure CrawlState where
  queue : List Str
  visited : List Str
  discovered : List Str
  /-- Ghost trace: every URL ever appended to the queue by the link loop. -/
  enqueued : List Str

/-- The body of the link-extraction loop in `WebCrawler.crawl`: skip fragment
and `javascript:` links, resolve to an absolute URL, keep only URLs having the
seed's `scheme://netloc` as a string prefix, strip the query string, then
enqueue unless already visited or already queued. -/
def processHref (baseUrl current : Str) (st : CrawlState) (href : Str) : CrawlState :=
  if href.take 1 = ['#'] ∨ "javascript:".data.isPrefixOf href then st
  else if ¬ baseUrl.isPrefixOf (urljoin current href) then st
  else if stripQueryUrl (urljoin current href) ∉ st.visited ∧
      stripQueryUrl (urljoin current href) ∉ st.queue then
    { st with queue := st.queue ++ [stripQueryUrl (urljoin current href)],
              enqueued := st.enqueued ++ [stripQueryUrl (urljoin current href)] }
  else st

/-- The `while to_visit and len(visited) < self.max_pages` loop of
`WebCrawler.crawl`, with explicit fuel (the verified properties hold for every
fuel value, in particular for any fuel large enough to exhaust the queue). -/
def crawlLoop (pages : Str → CrawlFetch) (baseUrl : Str) (maxPages : Nat) :
    Nat → CrawlState → CrawlState
  | 0, st => st
  | fuel + 1, st =>
    match st.queue with
    | [] => st
    | current :: rest =>
      if maxPages ≤ st.visited.length then st
      else
        let st1 := { st with queue := rest }
        if current ∈ st1.visited then crawlLoop pages baseUrl maxPages fuel st1
        else
          let st2 := { st1 with visited := st1.visited ++ [current] }
          match pages current with
          | .fetchError => crawlLoop pages baseUrl maxPages fuel st2
          | .nonHtml => crawlLoop pages baseUrl maxPages fuel st2
          | .html hrefs =>
            let st3 := { st2 with discovered := st2.discovered ++ [current] }
            crawlLoop pages baseUrl maxPages fuel
              (hrefs.foldl (processHref baseUrl current) st3)

/-- `WebCrawler.crawl`: seed the queue with the start URL and run the loop. -/
def crawl (pages : Str → CrawlFetch) (startUrl : Str) (maxPages fuel : Nat) :
    CrawlState :=
  crawlLoop pages (schemeNetloc (parseUrl startUrl)) maxPages fuel
    ⟨[startUrl], [], [], []⟩

/-! ### Facts about the URL helpers -/

theorem toNat_ofNat_small (n : Nat) (h : n < 55296) : (Char.ofNat n).toNat = n := by
  rw [Char.ofNat, dif_pos (Or.inl h)]
  show (UInt32.ofNat' n _).toNat = n
  simp [UInt32.ofNat', UInt32.toNat, BitVec.ofNatLt]

theorem toLower_shape (c : Char) :
    Char.toLower c = c ∨
      ((Char.toLower c).toNat = c.toNat + 32 ∧ 65 ≤ c.toNat ∧ c.toNat ≤ 90) := by
  simp only [Char.toLower]
  split
  next h => exact Or.inr ⟨toNat_ofNat_small _ (by omega), h.1, h.2⟩
  next h => exact Or.inl rfl

theorem splitAtFirst_fst_not_mem (sep : Char) (s : Str) :
    sep ∉ (splitAtFirst sep s).1 := by
  induction s with
  | nil => simp [splitAtFirst]
  | cons c rest ih =>
    simp only [splitAtFirst]
    by_cases hc : c = sep
    · simp [hc]
    · simp only [if_neg hc, List.mem_cons, not_or]
      exact ⟨fun h => hc h.symm, ih⟩

theorem splitAtFirst_snd_nil_of_not_mem (sep : Char) (s : Str) (h : sep ∉ s) :
    (splitAtFirst sep s).2 = [] := by
  induction s with
  | nil => simp [splitAtFirst]
  | cons c rest ih =>
    simp only [List.mem_cons, not_or] at h
    simp only [splitAtFirst]
    by_cases hc : c = sep
    · exact absurd hc.symm h.1
    · simp only [if_neg hc]
      exact ih h.2

theorem mem_splitAtFirst_fst (sep c : Char) (s : Str)
    (h : c ∈ (splitAtFirst sep s).1) : c ∈ s := by
  induction s with
  | nil => simpa [splitAtFirst] using h
  | cons a rest ih =>
    simp only [splitAtFirst] at h
    by_cases ha : a = sep
    · simp [ha] at h
    · simp only [if_neg ha, List.mem_cons] at h
      rcases h with h | h
      · exact h ▸ List.mem_cons_self a rest
      · exact List.mem_cons_of_mem a (ih h)

theorem mem_extractScheme_snd (s : Str) (c : Char)
    (h : c ∈ (extractScheme s).2) : c ∈ s := by
  unfold extractScheme at h
  split at h
  next d cs rest heq1 heq2 =>
    by_cases hd : d.isAlpha
    · simp only [hd, if_true] at h
      exact List.mem_of_mem_drop (heq2 ▸ List.mem_cons_of_mem _ h)
    · simp only [hd] at h
      simpa using h
  next => simpa using h

theorem mem_extractScheme_fst_ne (s : Str) (c : Char)
    (h : c ∈ (extractScheme s).1) : c ≠ '?' ∧ c ≠ '#' ∧ c ≠ '/' := by
  unfold extractScheme at h
  split at h
  next d cs rest heq1 heq2 =>
    by_cases hd : d.isAlpha
    · simp only [hd, if_true, List.mem_map] at h
      rcases h with ⟨d', hd', rfl⟩
      have hscheme : isSchemeChar d' = true := by
        have h1 : d' ∈ List.takeWhile (fun c => isSchemeChar c) s := heq1 ▸ hd'
        simpa using List.mem_takeWhile_imp h1
      have hne : d' ≠ '?' ∧ d' ≠ '#' ∧ d' ≠ '/' := by
        refine ⟨?_, ?_, ?_⟩ <;> rintro rfl <;> simp [isSchemeChar] at hscheme
      rcases toLower_shape d' with hl | ⟨hl, _, _⟩
      · rw [hl]; exact hne
      · refine ⟨?_, ?_, ?_⟩ <;> rintro heq <;> rw [heq] at hl <;>
          simp at hl <;> omega
    · simp only [hd] at h
      simp at h
  next => simp at h

theorem mem_netlocOf (r1 : Str) (c : Char) (h : c ∈ netlocOf r1) :
    ¬(c = '/' ∨ c = '?' ∨ c = '#') := by
  unfold netlocOf at h
  split at h
  · simpa using List.mem_takeWhile_imp h
  · simp at h

theorem mem_afterNetloc (r1 : Str) (c : Char) (h : c ∈ afterNetloc r1) :
    c ∈ r1 := by
  unfold afterNetloc at h
  split at h
  · exact List.mem_of_mem_drop (List.mem_of_mem_drop h)
  · exact h

theorem parseUrl_query_nil_of_not_mem (s : Str) (h : '?' ∉ s) :
    (parseUrl s).query = [] := by
  show (splitAtFirst '?' (splitAtFirst '#' (afterNetloc (extractScheme s).2)).1).2 = []
  apply splitAtFirst_snd_nil_of_not_mem
  intro hmem
  exact h (mem_extractScheme_snd _ _
    (mem_afterNetloc _ _ (mem_splitAtFirst_fst _ _ _ hmem)))

/-- Query strings really are stripped: the URL built by the crawler's
query-stripping always parses with an empty query component. -/
theorem stripQueryUrl_query (a : Str) : (parseUrl (stripQueryUrl a)).query = [] := by
  unfold stripQueryUrl
  by_cases hq : (parseUrl a).query = []
  · simpa [hq] using hq
  · simp only [hq, if_false]
    apply parseUrl_query_nil_of_not_mem
    intro hmem
    simp only [schemeNetloc, List.append_assoc, List.mem_append, List.mem_cons] at hmem
    rcases hmem with h | (h | h | h | h) | h | h
    · exact (mem_extractScheme_fst_ne a '?' h).1 rfl
    · exact absurd h (by decide)
    · exact absurd h (by decide)
    · exact absurd h (by decide)
    · simp at h
    · exact (mem_netlocOf _ '?' h) (by simp)
    · exact splitAtFirst_fst_not_mem '?' _ h

/-! ### Invariants of the recursive crawl -/

/-- The loop invariant of `WebCrawler.crawl`: the queue holds no duplicate and
nothing already visited; every URL the link loop ever enqueued is still queued
or has been visited; no URL was enqueued twice; and every enqueued URL is the
query-stripped form of an absolute URL that passed the
`startswith(base_url)` test. -/
def CrawlInv (baseUrl : Str) (st : CrawlState) : Prop :=
  st.queue.Nodup ∧
  (∀ u ∈ st.queue, u ∉ st.visited) ∧
  (∀ u ∈ st.enqueued, u ∈ st.queue ∨ u ∈ st.visited) ∧
  st.enqueued.Nodup ∧
  (∀ u ∈ st.enqueued, ∃ a, baseUrl.isPrefixOf a ∧ u = stripQueryUrl a)

theorem processHref_visited (b cur : Str) (st : CrawlState) (href : Str) :
    (processHref b cur st href).visited = st.visited := by
  unfold processHref
  split
  · rfl
  · split
    · rfl
    · split <;> rfl

theorem processHref_discovered (b cur : Str) (st : CrawlState) (href : Str) :
    (processHref b cur st href).discovered = st.discovered := by
  unfold processHref
  split
  · rfl
  · split
    · rfl
    · split <;> rfl

theorem processHref_inv (b cur : Str) (st : CrawlState) (href : Str)
    (h : CrawlInv b st) : CrawlInv b (processHref b cur st href) := by
  obtain ⟨h1, h2, h3, h4, h5⟩ := h
  unfold processHref
  split
  · exact ⟨h1, h2, h3, h4, h5⟩
  · split
    · exact ⟨h1, h2, h3, h4, h5⟩
    · split
      next hcond =>
        obtain ⟨hnv, hnq⟩ := hcond
        have hne : stripQueryUrl (urljoin cur href) ∉ st.enqueued := fun hmem =>
          (h3 _ hmem).elim hnq hnv
        refine ⟨?_, ?_, ?_, ?_, ?_⟩
        · simp only [List.nodup_append, List.nodup_cons, List.nodup_nil]
          exact ⟨h1, by simp, by
            intro x hx
            simp only [List.mem_singleton]
            intro hxa
            exact hnq (hxa ▸ hx)⟩
        · intro u hu
          rcases List.mem_append.mp hu with hu | hu
          · exact h2 u hu
          · rcases List.mem_singleton.mp hu with rfl
            exact hnv
        · intro u hu
          rcases List.mem_append.mp hu with hu | hu
          · rcases h3 u hu with hq | hv
            · exact Or.inl (List.mem_append_left _ hq)
            · exact Or.inr hv
          · rcases List.mem_singleton.mp hu with rfl
            exact Or.inl (List.mem_append_right _ (by simp))
        · simp only [List.nodup_append, List.nodup_cons, List.nodup_nil]
          exact ⟨h4, by simp, by
            intro x hx
            simp only [List.mem_singleton]
            intro hxa
            exact hne (hxa ▸ hx)⟩
        · intro u hu
          rcases List.mem_append.mp hu with hu | hu
          · exact h5 u hu
          · rcases List.mem_singleton.mp hu with rfl
            refine ⟨urljoin cur href, ?_, rfl⟩
            next hpre _ => exact not_not.mp hpre
      · exact ⟨h1, h2, h3, h4, h5⟩

theorem foldl_processHref_visited (b cur : Str) (hrefs : List Str) (st : CrawlState) :
    (hrefs.foldl (processHref b cur) st).visited = st.visited := by
  induction hrefs generalizing st with
  | nil => rfl
  | cons h hs ih => rw [List.foldl_cons, ih, processHref_visited]

theorem foldl_processHref_discovered (b cur : Str) (hrefs : List Str)
    (st : CrawlState) :
    (hrefs.foldl (processHref b cur) st).discovered = st.discovered := by
  induction hrefs generalizing st with
  | nil => rfl
  | cons h hs ih => rw [List.foldl_cons, ih, processHref_discovered]

theorem foldl_processHref_inv (b cur : Str) (hrefs : List Str) (st : CrawlState)
    (h : CrawlInv b st) : CrawlInv b (hrefs.foldl (processHref b cur) st) := by
  induction hrefs generalizing st with
  | nil => exact h
  | cons x hs ih => exact ih _ (processHref_inv b cur st x h)

theorem crawlLoop_inv (pages : Str → CrawlFetch) (b : Str) (mp : Nat) :
    ∀ fuel st, CrawlInv b st → CrawlInv b (crawlLoop pages b mp fuel st) := by
  intro fuel
  induction fuel with
  | zero => intro st h; exact h
  | succ fuel ih =>
    intro st h
    obtain ⟨q, v, d, e⟩ := st
    obtain ⟨h1, h2, h3, h4, h5⟩ := h
    match q with
    | [] => exact ⟨h1, h2, h3, h4, h5⟩
    | current :: rest =>
      show CrawlInv b (if mp ≤ v.length then _ else _)
      by_cases hstop : mp ≤ v.length
      · simp only [if_pos hstop]
        exact ⟨h1, h2, h3, h4, h5⟩
      · simp only [if_neg hstop]
        simp only [List.nodup_cons] at h1
        by_cases hvis : current ∈ v
        · simp only [if_pos hvis]
          refine ih _ ⟨h1.2, fun u hu => h2 u (List.mem_cons_of_mem _ hu), ?_, h4, h5⟩
          intro u hu
          rcases h3 u hu with hq | hv
          · rcases List.mem_cons.mp hq with rfl | hq
            · exact Or.inr hvis
            · exact Or.inl hq
          · exact Or.inr hv
        · simp only [if_neg hvis]
          have hinv2 : CrawlInv b ⟨rest, v ++ [current], d, e⟩ := by
            refine ⟨h1.2, ?_, ?_, h4, h5⟩
            · intro u hu
              intro hmem
              rcases List.mem_append.mp hmem with hm | hm
              · exact h2 u (List.mem_cons_of_mem _ hu) hm
              · rcases List.mem_singleton.mp hm with rfl
                exact h1.1 hu
            · intro u hu
              rcases h3 u hu with hq | hv
              · rcases List.mem_cons.mp hq with rfl | hq
                · exact Or.inr (List.mem_append_right _ (by simp))
                · exact Or.inl hq
              · exact Or.inr (List.mem_append_left _ hv)
          match pages current with
          | .fetchError => exact ih _ hinv2
          | .nonHtml => exact ih _ hinv2
          | .html hrefs =>
            apply ih
            apply foldl_processHref_inv
            obtain ⟨g1, g2, g3, g4, g5⟩ := hinv2
            exact ⟨g1, g2, g3, g4, g5⟩

theorem crawlLoop_lengths (pages : Str → CrawlFetch) (b : Str) (mp : Nat) :
    ∀ fuel st, st.discovered.length ≤ st.visited.length → st.visited.length ≤ mp →
      (crawlLoop pages b mp fuel st).discovered.length ≤
          (crawlLoop pages b mp fuel st).visited.length ∧
        (crawlLoop pages b mp fuel st).visited.length ≤ mp := by
  intro fuel
  induction fuel with
  | zero => intro st hd hv; exact ⟨hd, hv⟩
  | succ fuel ih =>
    intro st hd hv
    obtain ⟨q, v, d, e⟩ := st
    dsimp only at hd hv
    match q with
    | [] => exact ⟨hd, hv⟩
    | current :: rest =>
      show _ ∧ _
      by_cases hstop : mp ≤ v.length
      · simp only [crawlLoop, if_pos hstop]
        exact ⟨hd, hv⟩
      · simp only [crawlLoop, if_neg hstop]
        by_cases hvis : current ∈ v
        · simp only [if_pos hvis]
          exact ih _ hd hv
        · simp only [if_neg hvis]
          match pages current with
          | .fetchError =>
            apply ih
            · simpa using Nat.le.step hd
            · simp only [List.length_append, List.length_singleton]
              omega
          | .nonHtml =>
            apply ih
            · simpa using Nat.le.step hd
            · simp only [List.length_append, List.length_singleton]
              omega
          | .html hrefs =>
            apply ih
            · rw [foldl_processHref_discovered, foldl_processHref_visited]
              simp only [List.length_append, List.length_singleton]
              omega
            · rw [foldl_processHref_visited]
              simp only [List.length_append, List.length_singleton]
              omega

/-- C2 (amended): a recursive crawl with `max_pages = N` discovers at most `N`
URLs; no URL is ever enqueued twice (anything already visited or already
queued is skipped); and every enqueued URL is the query-stripped form (its
parsed query component is empty) of an absolute link that has the seed's
`scheme://netloc` as a *string prefix* — the code's `startswith(base_url)`
test, which is weaker than a same-registrable-domain check. -/
theorem c2_crawl_scope_amended (pages : Str → CrawlFetch) (startUrl : Str)
    (mp fuel : Nat) :
    (crawl pages startUrl mp fuel).discovered.length ≤ mp ∧
    (crawl pages startUrl mp fuel).enqueued.Nodup ∧
    (∀ u ∈ (crawl pages startUrl mp fuel).enqueued,
      (∃ a, (schemeNetloc (parseUrl startUrl)).isPrefixOf a ∧ u = stripQueryUrl a) ∧
      (parseUrl u).query = []) := by
  have hlen := crawlLoop_lengths pages (schemeNetloc (parseUrl startUrl)) mp fuel
    ⟨[startUrl], [], [], []⟩ (by simp) (by simp)
  have hinv := crawlLoop_inv pages (schemeNetloc (parseUrl startUrl)) mp fuel
    ⟨[startUrl], [], [], []⟩
    ⟨by simp, by simp, by simp, by simp, by simp⟩
  refine ⟨le_trans hlen.1 hlen.2, hinv.2.2.2.1, ?_⟩
  intro u hu
  obtain ⟨a, hpre, heq⟩ := hinv.2.2.2.2 u hu
  exact ⟨⟨a, hpre, heq⟩, heq ▸ stripQueryUrl_query a⟩

/-- A concrete site for the C2 counterexample: the seed page links to a host
that merely *extends* the seed's host as a string. -/
def evilPages : Str → CrawlFetch := fun u =>
  if u = "https://example.com/".data
  then .html ["https://example.com.evil.com/page".data]
  else .html []

/-- C2: the claim that the crawl never enqueues a URL whose domain differs
from the seed's registrable domain is false: the scope test is
`startswith(base_url)` on the raw string, so from seed `https://example.com/`
the crawler enqueues (and then visits and reports) the external URL
`https://example.com.evil.com/page`, whose host differs from the seed's. -/
theorem c2_crawl_scope_counterexample :
    "https://example.com.evil.com/page".data ∈
        (crawl evilPages "https://example.com/".data 5 10).enqueued ∧
    "https://example.com.evil.com/page".data ∈
        (crawl evilPages "https://example.com/".data 5 10).discovered ∧
    (parseUrl "https://example.com.evil.com/page".data).netloc ≠
        (parseUrl "https://example.com/".data).netloc := by
  decide

/-! ## Adaptive rate limiting and the retry loop
(`src/downloader.py`, `ContentDownloader`)

Delays are Python floats; all the arithmetic the code performs on them
(multiplication by the backoff factor, `min` against `max_delay`,
multiplication by powers of two) is modelled over `ℚ`. -/

structure DlConfig where
  maxRetries : Nat
  retryCodes : List Nat
  adaptive : Bool
  backoffFactor : ℚ
  maxDelay : ℚ

/-- The constructor defaults: `max_retries=3`,
`retry_codes=[429,500,502,503,504]`, adaptive rate limiting on,
`backoff_factor=2.0`, `max_delay=5.0`. -/
def defaultDlConfig : DlConfig := ⟨3, [429, 500, 502, 503, 504], true, 2, 5⟩

/-- `self.request_delay = min(self.request_delay * self.backoff_factor,
self.max_delay)` — the single delay-raising formula, used both at
`downloader.py:326` (retryable response status) and `downloader.py:518`
(rate-limit signal in a transport error). -/
def adjustDelay (cfg : DlConfig) (d : ℚ) : ℚ :=
  min (d * cfg.backoffFactor) cfg.maxDelay

/-- The delay after a run prefix: each event either raises the delay (a
penalising outcome) or leaves it unchanged — no statement in
`ContentDownloader` ever lowers `request_delay`. -/
def delayAfter (cfg : DlConfig) (evs : List Bool) (d0 : ℚ) : ℚ :=
  evs.foldl (fun d e => if e then adjustDelay cfg d else d) d0

theorem adjustDelay_mono (cfg : DlConfig) (d : ℚ) (hbf : 1 ≤ cfg.backoffFactor)
    (hd0 : 0 ≤ d) (hd : d ≤ cfg.maxDelay) : d ≤ adjustDelay cfg d := by
  unfold adjustDelay
  refine le_min ?_ hd
  calc d = d * 1 := by ring
    _ ≤ d * cfg.backoffFactor := by
        exact mul_le_mul_of_nonneg_left hbf hd0

theorem delayAfter_invariant (cfg : DlConfig) (d0 : ℚ)
    (hbf : 1 ≤ cfg.backoffFactor) (h0 : 0 ≤ d0) (hmax : d0 ≤ cfg.maxDelay) :
    ∀ evs, 0 ≤ delayAfter cfg evs d0 ∧ delayAfter cfg evs d0 ≤ cfg.maxDelay := by
  intro evs
  induction evs generalizing d0 with
  | nil => exact ⟨h0, hmax⟩
  | cons e es ih =>
    simp only [delayAfter, List.foldl_cons]
    by_cases he : e = true
    · subst he
      simp only [if_true]
      refine ih (adjustDelay cfg d0) ?_ ?_
      · exact le_trans h0 (adjustDelay_mono cfg d0 hbf h0 hmax)
      · exact min_le_right _ _
    · simp only [he, if_false]
      exact ih d0 h0 hmax

theorem delayAfter_append (cfg : DlConfig) (d0 : ℚ) (pre post : List Bool) :
    delayAfter cfg (pre ++ post) d0 = delayAfter cfg post (delayAfter cfg pre d0) := by
  simp [delayAfter, List.foldl_append]

/-- C4: with the shipped configuration (backoff factor ≥ 1 and an initial
delay within `[0, max_delay]`), the adaptive delay is non-decreasing after
every penalising outcome, never exceeds `max_delay`, and any raised value
persists for the remainder of the run (no event lowers it). -/
theorem c4_backoff_monotone (cfg : DlConfig) (d0 : ℚ)
    (hbf : 1 ≤ cfg.backoffFactor) (h0 : 0 ≤ d0) (hmax : d0 ≤ cfg.maxDelay) :
    (∀ evs, delayAfter cfg evs d0 ≤ cfg.maxDelay) ∧
    (∀ pre post, delayAfter cfg pre d0 ≤ delayAfter cfg (pre ++ post) d0) := by
  constructor
  · intro evs
    exact (delayAfter_invariant cfg d0 hbf h0 hmax evs).2
  · intro pre post
    rw [delayAfter_append]
    have hpre := delayAfter_invariant cfg d0 hbf h0 hmax pre
    have key : ∀ (evs : List Bool) (d : ℚ), 0 ≤ d → d ≤ cfg.maxDelay →
        d ≤ delayAfter cfg evs d := by
      intro evs
      induction evs with
      | nil => intro d _ _; exact le_refl _
      | cons e es ih =>
        intro d hd0 hdm
        simp only [delayAfter, List.foldl_cons]
        by_cases he : e = true
        · subst he
          simp only [if_true]
          have h1 := adjustDelay_mono cfg d hbf hd0 hdm
          exact le_trans h1 (ih (adjustDelay cfg d) (le_trans hd0 h1)
            (min_le_right _ _))
        · simp only [he, if_false]
          exact ih d hd0 hdm
    exact key post _ hpre.1 hpre.2

/-- C4 witness: three consecutive retryable responses starting from the
default `request_delay = 1.5`, `backoff_factor = 2.0`, `max_delay = 5.0`. -/
theorem c4_backoff_monotone_witness :
    (1 : ℚ) ≤ defaultDlConfig.backoffFactor ∧ (0 : ℚ) ≤ 3/2 ∧
      (3/2 : ℚ) ≤ defaultDlConfig.maxDelay ∧
      delayAfter defaultDlConfig [true, true, true] (3/2) ≤
        defaultDlConfig.maxDelay ∧
      delayAfter defaultDlConfig [true] (3/2) ≤
        delayAfter defaultDlConfig ([true] ++ [true, true]) (3/2) := by
  have h := c4_backoff_monotone defaultDlConfig (3/2)
    (by norm_num [defaultDlConfig]) (by norm_num)
    (by norm_num [defaultDlConfig])
  exact ⟨by norm_num [defaultDlConfig], by norm_num,
    by norm_num [defaultDlConfig], h.1 [true, true, true], h.2 [true] [true, true]⟩

/-! ### One iteration of the `_download_url` retry loop -/

/-- What the current iteration of the retry loop decides to do next. -/
inductive StepAction : Type where
  /-- `continue` after sleeping `wait` seconds. -/
  | retry (wait : ℚ) : StepAction
  /-- fall through to the success path of the iteration. -/
  | proceed : StepAction
  /-- `return None`: retries exhausted. -/
  | giveUp : StepAction
deriving DecidableEq

structure StepOut where
  retries : Nat
  delay : ℚ
  action : StepAction
deriving DecidableEq

/-- One fetch outcome as seen by the loop: either `requests` returned a
response, or it raised a `RequestException` optionally carrying a response
status, with `rateMsg` true when the exception text contains a rate-limit
wording (`"rate"` together with `"limit"`/`"exceed"`). -/
inductive FetchEvent : Type where
  | response (status : Nat) : FetchEvent
  | transportError (status? : Option Nat) (rateMsg : Bool) : FetchEvent

/-- The delay set by the exception handler: raised only when the error is
recognised as rate limiting — a carried 429 status or rate-limit wording. -/
def exceptDelay (cfg : DlConfig) (status? : Option Nat) (rateMsg : Bool)
    (delay : ℚ) : ℚ :=
  if (status? = some 429 ∨ rateMsg = true) ∧ cfg.adaptive = true then
    adjustDelay cfg delay
  else delay

/-- The `except requests.exceptions.RequestException` handler
(`downloader.py:486-539`): increment the attempt counter, adjust the delay
only on a rate-limit signal, then retry while attempts remain, sleeping
`request_delay * 2**retries`. -/
def exceptStep (cfg : DlConfig) (status? : Option Nat) (rateMsg : Bool)
    (retries : Nat) (delay : ℚ) : StepOut :=
  if retries + 1 ≤ cfg.maxRetries then
    ⟨retries + 1, exceptDelay cfg status? rateMsg delay,
      .retry (exceptDelay cfg status? rateMsg delay * 2 ^ (retries + 1))⟩
  else ⟨retries + 1, exceptDelay cfg status? rateMsg delay, .giveUp⟩

/-- The delay set when a retryable status arrives as a normal response:
raised whenever adaptive rate limiting is on. -/
def responseDelay (cfg : DlConfig) (delay : ℚ) : ℚ :=
  if cfg.adaptive = true then adjustDelay cfg delay else delay

/-- The response half of one loop iteration (`downloader.py:306-335`): a
retryable status with attempts remaining raises the adaptive delay and
retries; otherwise `raise_for_status` lets statuses below 400 proceed to the
success path and turns 4xx/5xx into a `RequestException` handled by
`exceptStep` within the same iteration. -/
def downloadStep (cfg : DlConfig) (ev : FetchEvent) (retries : Nat)
    (delay : ℚ) : StepOut :=
  match ev with
  | .response status =>
    if status ∈ cfg.retryCodes ∧ retries < cfg.maxRetries then
      ⟨retries + 1, responseDelay cfg delay,
        .retry (responseDelay cfg delay * 2 ^ (retries + 1))⟩
    else if status < 400 then ⟨retries, delay, .proceed⟩
    else exceptStep cfg (some status) false retries delay
  | .transportError status? rateMsg => exceptStep cfg status? rateMsg retries delay

/-- C5: the claim that a transport error carrying an HTTP status is treated
identically to the same status received as a response is false: a normal 500
response raises the adaptive delay before retrying (1.5 → 3.0 with the
defaults), while a transport error carrying status 500 retries with the delay
unchanged, because the exception handler only penalises on 429 or an explicit
rate-limit wording. -/
theorem c5_transport_error_counterexample :
    (downloadStep defaultDlConfig (.response 500) 0 (3/2)).delay = 3 ∧
    (downloadStep defaultDlConfig (.transportError (some 500) false) 0
        (3/2)).delay = 3/2 ∧
    downloadStep defaultDlConfig (.response 500) 0 (3/2) ≠
      downloadStep defaultDlConfig (.transportError (some 500) false) 0 (3/2) := by
  refine ⟨?_, ?_, ?_⟩
  · norm_num [downloadStep, exceptStep, exceptDelay, responseDelay,
      defaultDlConfig, adjustDelay]
  · norm_num [downloadStep, exceptStep, exceptDelay, responseDelay,
      defaultDlConfig, adjustDelay]
  · intro h
    have h2 := congrArg StepOut.delay h
    norm_num [downloadStep, exceptStep, exceptDelay, responseDelay,
      defaultDlConfig, adjustDelay] at h2

/-- C5 (amended): with adaptive rate limiting on, as long as attempts remain
a transport error carrying a retryable non-429 status is retried on the same
schedule as the corresponding response status (same incremented attempt
counter, both retry), but it leaves the adaptive delay unchanged whereas the
response path raises it; a transport error carrying 429 behaves identically
to a 429 response. -/
theorem c5_transport_error_amended (cfg : DlConfig) (status : Nat)
    (hmem : status ∈ cfg.retryCodes) (hne : status ≠ 429)
    (hadapt : cfg.adaptive = true) (h429 : (429 : Nat) ∈ cfg.retryCodes)
    (retries : Nat) (delay : ℚ) (hr : retries < cfg.maxRetries) :
    downloadStep cfg (.response status) retries delay
        = ⟨retries + 1, adjustDelay cfg delay,
            .retry (adjustDelay cfg delay * 2 ^ (retries + 1))⟩ ∧
    downloadStep cfg (.transportError (some status) false) retries delay
        = ⟨retries + 1, delay, .retry (delay * 2 ^ (retries + 1))⟩ ∧
    downloadStep cfg (.response 429) retries delay
        = downloadStep cfg (.transportError (some 429) false) retries delay := by
  have hstep : retries + 1 ≤ cfg.maxRetries := hr
  have hnot : ¬((some status = some 429 ∨ (false : Bool) = true) ∧
      cfg.adaptive = true) := by
    rintro ⟨h1 | h1, -⟩
    · exact hne (Option.some_injective _ h1)
    · simp at h1
  refine ⟨?_, ?_, ?_⟩
  · rw [downloadStep, if_pos ⟨hmem, hr⟩, responseDelay, if_pos hadapt]
  · rw [downloadStep, exceptStep, if_pos hstep, exceptDelay, if_neg hnot]
  · rw [downloadStep, if_pos ⟨h429, hr⟩, responseDelay, if_pos hadapt,
      downloadStep, exceptStep, if_pos hstep, exceptDelay,
      if_pos ⟨Or.inl rfl, hadapt⟩]

/-- C5 amended-claim witness at status 502, one attempt used, delay 1.5,
default configuration. -/
theorem c5_transport_error_amended_witness :
    (502 ∈ defaultDlConfig.retryCodes) ∧ (502 ≠ 429) ∧
      defaultDlConfig.adaptive = true ∧ (429 ∈ defaultDlConfig.retryCodes) ∧
      1 < defaultDlConfig.maxRetries ∧
      (downloadStep defaultDlConfig (.response 502) 1 (3/2)).delay
          = adjustDelay defaultDlConfig (3/2) ∧
      (downloadStep defaultDlConfig (.transportError (some 502) false) 1
          (3/2)).delay = 3/2 := by
  have h := c5_transport_error_amended defaultDlConfig 502 (by simp [defaultDlConfig])
    (by simp) (by simp [defaultDlConfig]) (by simp [defaultDlConfig]) 1 (3/2)
    (by norm_num [defaultDlConfig])
  refine ⟨by simp [defaultDlConfig], by simp, by simp [defaultDlConfig],
    by simp [defaultDlConfig], by norm_num [defaultDlConfig], ?_, ?_⟩
  · rw [h.1]
  · rw [h.2.1]

/-! ## The content fetcher's path mapping and file effects
(`src/downloader.py`, `_download_url` success path, lines 337-465)

Paths are modelled as lists of path segments (the results of
`os.path.join`); the archive's `HTML`/`JSON` roots are the leading
segments. -/

/-- Python `s.strip('/')`. -/
def stripSlashes (s : Str) : Str :=
  ((s.dropWhile (fun c => c = '/')).reverse.dropWhile (fun c => c = '/')).reverse

/-- Python `s.split(sep)` for a one-character separator: always nonempty,
keeps empty fields. -/
def splitOnChar (sep : Char) : Str → List Str
  | [] => [[]]
  | c :: rest =>
    if c = sep then [] :: splitOnChar sep rest
    else
      match splitOnChar sep rest with
      | [] => [[c]]
      | p :: ps => (c :: p) :: ps

/-- Python `netloc.replace('.', '_')`. -/
def domainUnderscore (netloc : Str) : Str :=
  netloc.map (fun c => if c = '.' then '_' else c)

/-- Python `os.path.splitext(name)[0]`: drop the part from the last dot on
(when a dot is present). -/
def splitextStem (name : Str) : Str :=
  if '.' ∈ name then (name.reverse.dropWhile (fun c => c ≠ '.')).reverse.dropLast
  else name

/-- The URL→path mapping of `_download_url` (downloader.py:337-375), as
segments below the `HTML` directory: split the stripped URL path on `/`,
append `.html` to the last segment when it contains no dot, and fall back to
`<domain>_index.html` (dots replaced by underscores) for an empty path.  No
sanitisation and no length truncation is performed. -/
def htmlFileSegments (url : Str) : List Str :=
  if stripSlashes (parseUrl url).path ≠ [] then
    match splitOnChar '/' (stripSlashes (parseUrl url).path) with
    | [] => []
    | parts =>
      parts.dropLast ++
        [if '.' ∈ parts.getLastD [] then parts.getLastD []
         else parts.getLastD [] ++ ".html".data]
  else [domainUnderscore (parseUrl url).netloc ++ "_index.html".data]

/-- The page file's full path: `HTML/<segments>`. -/
def pageFilePath (url : Str) : List Str :=
  "HTML".data :: htmlFileSegments url

/-- The metadata sidecar's full path: the same relative structure under
`JSON`, named `<stem>_meta.json` (downloader.py:434-448). -/
def metaFilePath (url : Str) : List Str :=
  "JSON".data ::
    ((htmlFileSegments url).dropLast ++
      [splitextStem ((htmlFileSegments url).getLastD []) ++ "_meta.json".data])

/-- An in-memory filesystem: association by full segment path, newest entry
first; a write replaces any previous content at the same path. -/
def fsLookup (fs : List (List Str × Str)) (p : List Str) : Option Str :=
  match fs with
  | [] => none
  | e :: rest => if e.1 = p then some e.2 else fsLookup rest p

def fsWrite (fs : List (List Str × Str)) (p : List Str) (c : Str) :
    List (List Str × Str) :=
  (p, c) :: fs.filter (fun e => ¬ e.1 = p)

def fsTotalBytes (fs : List (List Str × Str)) : Nat :=
  (fs.map (fun e => e.2.length)).sum

/-- A deterministic HTTP response: status and body (the `Content-Type`
handling of the media branch is modelled with the media fetcher, which this
page-level model runs with `download_media=False`). -/
structure HttpResponse where
  status : Nat
  content : Str
deriving DecidableEq

inductive DlResult : Type where
  | skipped (filePath : List Str) : DlResult
  | downloaded (filePath metaPath : List Str) : DlResult
deriving DecidableEq

structure DlState where
  files : List (List Str × Str)
  statusCodes : List Nat
  sessionLogs : List (Str × List Str)
  errorLogs : List (Str × Option Nat × Nat)
  requests : Nat
  delay : ℚ
deriving DecidableEq

/-- Record one issued GET: bump the request count, add the observed status to
the process-wide histogram (downloader.py:306-310). -/
def recordGet (st : DlState) (status : Nat) : DlState :=
  { st with requests := st.requests + 1, statusCodes := st.statusCodes ++ [status] }

/-- The adaptive penalty applied before retrying a retryable response status
(downloader.py:325-327). -/
def penalizeSt (cfg : DlConfig) (st : DlState) : DlState :=
  { st with delay := if cfg.adaptive = true then adjustDelay cfg st.delay else st.delay }

/-- The exception handler's state effects for an error raised by
`raise_for_status` (downloader.py:486-529): the carried status is recorded a
second time, an error-log entry is appended, and the delay is raised only for
a 429 (the rate-limit signal). -/
def exceptRecord (cfg : DlConfig) (url : Str) (status : Nat) (retries : Nat)
    (st : DlState) : DlState :=
  { st with statusCodes := st.statusCodes ++ [status],
            errorLogs := st.errorLogs ++ [(url, some status, retries + 1)],
            delay := if status = 429 ∧ cfg.adaptive = true then
                adjustDelay cfg st.delay
              else st.delay }

/-- The success path of `_download_url` (downloader.py:337-465, with
`download_media=False`): map the URL to its path, skip without any write when
a file already exists there, otherwise write the page body, write the
metadata sidecar (its JSON body is represented by the URL it records), and
append a session-log entry. -/
def successBranch (url : Str) (content : Str) (st : DlState) :
    Option DlResult × DlState :=
  if fsLookup st.files (pageFilePath url) = none then
    (some (.downloaded (pageFilePath url) (metaFilePath url)),
     { st with
        files := fsWrite (fsWrite st.files (pageFilePath url) content)
          (metaFilePath url) url,
        sessionLogs := st.sessionLogs ++ [(url, pageFilePath url)] })
  else (some (.skipped (pageFilePath url)), st)

/-- The `while retries <= self.max_retries` loop of `_download_url` against a
deterministic server: record the status in the histogram on every GET, retry
with penalty on a retryable status while attempts remain, let sub-400
statuses through to the success path, and send 4xx/5xx through the exception
handler, which retries while attempts remain and otherwise returns `None`. -/
def downloadUrlGo (cfg : DlConfig) (server : Str → HttpResponse) (url : Str) :
    Nat → Nat → DlState → Option DlResult × DlState
  | 0, _, st => (none, st)
  | fuel + 1, retries, st =>
    if cfg.maxRetries < retries then (none, st)
    else if (server url).status ∈ cfg.retryCodes ∧ retries < cfg.maxRetries then
      downloadUrlGo cfg server url fuel (retries + 1)
        (penalizeSt cfg (recordGet st (server url).status))
    else if (server url).status < 400 then
      successBranch url (server url).content (recordGet st (server url).status)
    else if retries + 1 ≤ cfg.maxRetries then
      downloadUrlGo cfg server url fuel (retries + 1)
        (exceptRecord cfg url (server url).status retries
          (recordGet st (server url).status))
    else
      (none, exceptRecord cfg url (server url).status retries
        (recordGet st (server url).status))

/-- `_download_url`: the loop starts at `retries = 0`; `max_retries + 2`
iterations always suffice to reach one of the `return` statements. -/
def downloadUrl (cfg : DlConfig) (server : Str → HttpResponse) (url : Str)
    (st : DlState) : Option DlResult × DlState :=
  downloadUrlGo cfg server url (cfg.maxRetries + 2) 0 st

/-- The download loop of `download_all` over the URL list (state effects of
the per-URL work; logging/reporting I/O is outside the claims). -/
def downloadAll (cfg : DlConfig) (server : Str → HttpResponse) :
    List Str → DlState → List (Option DlResult) × DlState
  | [], st => ([], st)
  | u :: us, st =>
    ((downloadUrl cfg server u st).1 ::
        (downloadAll cfg server us (downloadUrl cfg server u st).2).1,
      (downloadAll cfg server us (downloadUrl cfg server u st).2).2)

/-! ### Facts about the filesystem model and the fetch loop -/

theorem fsLookup_fsWrite (fs : List (List Str × Str)) (q p : List Str) (d : Str) :
    fsLookup (fsWrite fs q d) p = if p = q then some d else fsLookup fs p := by
  unfold fsWrite
  by_cases hpq : p = q
  · subst hpq
    simp [fsLookup]
  · have hqp : ¬ (q = p) := fun h => hpq h.symm
    simp only [fsLookup, if_neg hqp, if_neg hpq]
    induction fs with
    | nil => rfl
    | cons e fs ih =>
      by_cases heq : e.1 = q
      · rw [List.filter_cons_of_neg (by simpa using heq)]
        rw [ih]
        have hep : ¬ (e.1 = p) := fun h => hqp (heq ▸ h : q = p)
        simp only [fsLookup]
        rw [if_neg hep]
      · rw [List.filter_cons_of_pos (by simpa using heq)]
        simp only [fsLookup]
        by_cases hep : e.1 = p
        · rw [if_pos hep, if_pos hep]
        · rw [if_neg hep, if_neg hep]
          exact ih

theorem pageFilePath_head (url : Str) :
    (pageFilePath url).head? = some "HTML".data := rfl

theorem metaFilePath_head (url : Str) :
    (metaFilePath url).head? = some "JSON".data := rfl

theorem pageFilePath_ne_metaFilePath (u v : Str) :
    pageFilePath u ≠ metaFilePath v := by
  intro h
  have h2 := congrArg List.head? h
  rw [pageFilePath_head, metaFilePath_head] at h2
  exact absurd h2 (by decide)

/-- With a sub-400, non-retryable response status the loop runs exactly one
iteration: record the GET and enter the success branch. -/
theorem downloadUrl_ok (cfg : DlConfig) (server : Str → HttpResponse) (url : Str)
    (st : DlState) (hst : (server url).status < 400)
    (hnr : (server url).status ∉ cfg.retryCodes) :
    downloadUrl cfg server url st =
      successBranch url (server url).content (recordGet st (server url).status) := by
  show downloadUrlGo cfg server url (cfg.maxRetries + 2) 0 st = _
  rw [show cfg.maxRetries + 2 = (cfg.maxRetries + 1) + 1 from rfl]
  rw [downloadUrlGo]
  rw [if_neg (by omega)]
  rw [if_neg (by intro h; exact hnr h.1)]
  rw [if_pos hst]

/-- A lookup that succeeds keeps succeeding across the fetch loop (files are
only ever added, or overwritten at the page path when it was vacant). -/
theorem downloadUrlGo_lookup_ne_none (cfg : DlConfig) (server : Str → HttpResponse)
    (url : Str) (p : List Str) :
    ∀ fuel retries st, fsLookup st.files p ≠ none →
      fsLookup ((downloadUrlGo cfg server url fuel retries st).2).files p ≠ none := by
  intro fuel
  induction fuel with
  | zero => intro retries st h; exact h
  | succ fuel ih =>
    intro retries st h
    rw [downloadUrlGo]
    by_cases h1 : cfg.maxRetries < retries
    · rw [if_pos h1]; exact h
    · rw [if_neg h1]
      by_cases h2 : (server url).status ∈ cfg.retryCodes ∧ retries < cfg.maxRetries
      · rw [if_pos h2]
        exact ih _ _ h
      · rw [if_neg h2]
        by_cases h3 : (server url).status < 400
        · rw [if_pos h3]
          unfold successBranch
          by_cases h4 : fsLookup (recordGet st (server url).status).files
              (pageFilePath url) = none
          · rw [if_pos h4]
            simp only [fsLookup_fsWrite]
            split
            · simp
            · split
              · simp
              · exact h
          · rw [if_neg h4]
            exact h
        · rw [if_neg h3]
          by_cases h5 : retries + 1 ≤ cfg.maxRetries
          · rw [if_pos h5]
            exact ih _ _ h
          · rw [if_neg h5]
            exact h

/-- Never-overwrite: an existing file whose path lies under `HTML` (every
Path-Mapper output does) keeps its exact content across any `_download_url`
call — the page write happens only when the path is vacant and the sidecar
write targets the `JSON` tree. -/
theorem downloadUrlGo_preserves_html (cfg : DlConfig) (server : Str → HttpResponse)
    (url : Str) (p : List Str) (c : Str) (hp : p.head? = some "HTML".data) :
    ∀ fuel retries st, fsLookup st.files p = some c →
      fsLookup ((downloadUrlGo cfg server url fuel retries st).2).files p = some c := by
  intro fuel
  induction fuel with
  | zero => intro retries st h; exact h
  | succ fuel ih =>
    intro retries st h
    rw [downloadUrlGo]
    by_cases h1 : cfg.maxRetries < retries
    · rw [if_pos h1]; exact h
    · rw [if_neg h1]
      by_cases h2 : (server url).status ∈ cfg.retryCodes ∧ retries < cfg.maxRetries
      · rw [if_pos h2]
        exact ih _ _ h
      · rw [if_neg h2]
        by_cases h3 : (server url).status < 400
        · rw [if_pos h3]
          unfold successBranch
          by_cases h4 : fsLookup (recordGet st (server url).status).files
              (pageFilePath url) = none
          · rw [if_pos h4]
            simp only [fsLookup_fsWrite]
            rw [if_neg, if_neg]
            · exact h
            · intro hpq
              have hx : fsLookup st.files (pageFilePath url) = none := h4
              rw [← hpq, h] at hx
              exact Option.noConfusion hx
            · intro hpq
              have h6 := congrArg List.head? hpq
              rw [hp, metaFilePath_head] at h6
              exact absurd h6 (by decide)
          · rw [if_neg h4]
            exact h
        · rw [if_neg h3]
          by_cases h5 : retries + 1 ≤ cfg.maxRetries
          · rw [if_pos h5]
            exact ih _ _ h
          · rw [if_neg h5]
            exact h

/-- C10: when a file already exists at the mapped path, `_download_url` still
issues the GET (one more request, one more histogram entry for the observed
status) and then returns a skipped result having changed nothing else: no
content file written, no metadata sidecar, no session-log entry, no error-log
entry, delay untouched. -/
theorem c10_skip_frame (cfg : DlConfig) (server : Str → HttpResponse) (url : Str)
    (st : DlState) (c : Str) (hst : (server url).status < 400)
    (hnr : (server url).status ∉ cfg.retryCodes)
    (hex : fsLookup st.files (pageFilePath url) = some c) :
    (downloadUrl cfg server url st).1 = some (.skipped (pageFilePath url)) ∧
    (downloadUrl cfg server url st).2.files = st.files ∧
    (downloadUrl cfg server url st).2.sessionLogs = st.sessionLogs ∧
    (downloadUrl cfg server url st).2.errorLogs = st.errorLogs ∧
    (downloadUrl cfg server url st).2.delay = st.delay ∧
    (downloadUrl cfg server url st).2.requests = st.requests + 1 ∧
    (downloadUrl cfg server url st).2.statusCodes
        = st.statusCodes ++ [(server url).status] := by
  rw [downloadUrl_ok cfg server url st hst hnr]
  unfold successBranch
  rw [if_neg (by
    show ¬ fsLookup st.files (pageFilePath url) = none
    rw [hex]
    exact Option.noConfusion)]
  exact ⟨rfl, rfl, rfl, rfl, rfl, rfl, rfl⟩

/-- C10 witness: a 200 response for a URL whose mapped path already holds a
file. -/
theorem c10_skip_frame_witness :
    ((200 : Nat) < 400 ∧ (200 : Nat) ∉ defaultDlConfig.retryCodes ∧
      fsLookup [(pageFilePath "https://example.com/a".data, "old".data)]
        (pageFilePath "https://example.com/a".data) = some "old".data) ∧
    (downloadUrl defaultDlConfig (fun _ => ⟨200, "new".data⟩)
        "https://example.com/a".data
        ⟨[(pageFilePath "https://example.com/a".data, "old".data)], [], [], [], 0,
          3/2⟩).1 = some (.skipped (pageFilePath "https://example.com/a".data)) ∧
    (downloadUrl defaultDlConfig (fun _ => ⟨200, "new".data⟩)
        "https://example.com/a".data
        ⟨[(pageFilePath "https://example.com/a".data, "old".data)], [], [], [], 0,
          3/2⟩).2.files
      = [(pageFilePath "https://example.com/a".data, "old".data)] := by
  have h := c10_skip_frame defaultDlConfig (fun _ => ⟨200, "new".data⟩)
    "https://example.com/a".data
    ⟨[(pageFilePath "https://example.com/a".data, "old".data)], [], [], [], 0, 3/2⟩
    "old".data (by norm_num) (by decide) (by simp [fsLookup])
  exact ⟨⟨by norm_num, by decide, by simp [fsLookup]⟩, h.1, h.2.1⟩

/-- After a successful-status `_download_url`, a file exists at the mapped
path (it was either just written or already present). -/
theorem downloadUrl_ok_exists (cfg : DlConfig) (server : Str → HttpResponse)
    (url : Str) (st : DlState) (hst : (server url).status < 400)
    (hnr : (server url).status ∉ cfg.retryCodes) :
    fsLookup (downloadUrl cfg server url st).2.files (pageFilePath url) ≠ none := by
  rw [downloadUrl_ok cfg server url st hst hnr]
  unfold successBranch
  by_cases h4 : fsLookup (recordGet st (server url).status).files
      (pageFilePath url) = none
  · rw [if_pos h4]
    simp only [fsLookup_fsWrite]
    rw [if_neg (pageFilePath_ne_metaFilePath url url)]
    simp
  · rw [if_neg h4]
    exact h4

theorem downloadAll_lookup_ne_none (cfg : DlConfig) (server : Str → HttpResponse)
    (p : List Str) :
    ∀ urls st, fsLookup st.files p ≠ none →
      fsLookup ((downloadAll cfg server urls st).2).files p ≠ none := by
  intro urls
  induction urls with
  | nil => intro st h; exact h
  | cons u us ih =>
    intro st h
    exact ih _ (downloadUrlGo_lookup_ne_none cfg server u p _ _ _ h)

/-- After one pass with only successful statuses, every URL's mapped path is
occupied. -/
theorem downloadAll_ok_exists (cfg : DlConfig) (server : Str → HttpResponse) :
    ∀ urls st,
      (∀ u ∈ urls, (server u).status < 400 ∧ (server u).status ∉ cfg.retryCodes) →
      ∀ u ∈ urls,
        fsLookup ((downloadAll cfg server urls st).2).files (pageFilePath u)
          ≠ none := by
  intro urls
  induction urls with
  | nil => intro st _ u hu; exact absurd hu (List.not_mem_nil u)
  | cons v us ih =>
    intro st hok u hu
    rcases List.mem_cons.mp hu with rfl | hu
    · have h1 := hok u (List.mem_cons_self u us)
      exact downloadAll_lookup_ne_none cfg server (pageFilePath u) us _
        (downloadUrl_ok_exists cfg server u st h1.1 h1.2)
    · exact ih _ (fun w hw => hok w (List.mem_cons_of_mem v hw)) u hu

/-- A pass over URLs whose mapped paths all exist changes neither the files
nor the session log, and reports every outcome as skipped. -/
theorem downloadAll_skips (cfg : DlConfig) (server : Str → HttpResponse) :
    ∀ urls st,
      (∀ u ∈ urls, (server u).status < 400 ∧ (server u).status ∉ cfg.retryCodes) →
      (∀ u ∈ urls, fsLookup st.files (pageFilePath u) ≠ none) →
      (∀ r ∈ (downloadAll cfg server urls st).1, ∃ p, r = some (.skipped p)) ∧
      (downloadAll cfg server urls st).2.files = st.files ∧
      (downloadAll cfg server urls st).2.sessionLogs = st.sessionLogs := by
  intro urls
  induction urls with
  | nil =>
    intro st _ _
    exact ⟨fun r hr => absurd hr (List.not_mem_nil r), rfl, rfl⟩
  | cons u us ih =>
    intro st hok hex
    have h1 := hok u (List.mem_cons_self u us)
    obtain ⟨c, hc⟩ := Option.ne_none_iff_exists'.mp (hex u (List.mem_cons_self u us))
    have hskip := c10_skip_frame cfg server u st c h1.1 h1.2 hc
    have hfiles : (downloadUrl cfg server u st).2.files = st.files := hskip.2.1
    have hrest := ih (downloadUrl cfg server u st).2
      (fun w hw => hok w (List.mem_cons_of_mem u hw))
      (fun w hw => by rw [hfiles]; exact hex w (List.mem_cons_of_mem u hw))
    refine ⟨?_, ?_, ?_⟩
    · intro r hr
      simp only [downloadAll, List.mem_cons] at hr
      rcases hr with rfl | hr
      · exact ⟨pageFilePath u, hskip.1⟩
      · exact hrest.1 r hr
    · show (downloadAll cfg server us (downloadUrl cfg server u st).2).2.files = _
      rw [hrest.2.1, hfiles]
    · show (downloadAll cfg server us
        (downloadUrl cfg server u st).2).2.sessionLogs = _
      rw [hrest.2.2, hskip.2.2.1]

/-- C6: content-fetch idempotence.  If every URL in the set fetches with a
successful status, then (1) a second pass over the same set against the first
pass's output directory reports every outcome as skipped, (2) it leaves the
file tree — and hence the total byte count — unchanged, and (3) in full
generality `_download_url` never overwrites an existing file at a mapped
(`HTML`-tree) path. -/
theorem c6_fetch_idempotent (cfg : DlConfig) (server : Str → HttpResponse)
    (urls : List Str) (st0 : DlState)
    (hok : ∀ u ∈ urls, (server u).status < 400 ∧ (server u).status ∉ cfg.retryCodes) :
    (∀ r ∈ (downloadAll cfg server urls (downloadAll cfg server urls st0).2).1,
        ∃ p, r = some (.skipped p)) ∧
    (downloadAll cfg server urls (downloadAll cfg server urls st0).2).2.files
        = (downloadAll cfg server urls st0).2.files ∧
    fsTotalBytes
        (downloadAll cfg server urls (downloadAll cfg server urls st0).2).2.files
      = fsTotalBytes (downloadAll cfg server urls st0).2.files ∧
    (∀ (url : Str) (st : DlState) (p : List Str) (c : Str),
      p.head? = some "HTML".data → fsLookup st.files p = some c →
      fsLookup (downloadUrl cfg server url st).2.files p = some c) := by
  have hex := downloadAll_ok_exists cfg server urls st0 hok
  have h := downloadAll_skips cfg server urls (downloadAll cfg server urls st0).2
    hok hex
  exact ⟨h.1, h.2.1, by rw [h.2.1], fun url st p c hp hc =>
    downloadUrlGo_preserves_html cfg server url p c hp _ _ _ hc⟩

/-- C6 witness: two URLs mapping to distinct paths, a constant 200 server,
an empty initial tree. -/
theorem c6_fetch_idempotent_witness :
    (∀ u ∈ (["https://example.com/a".data, "https://example.com/b".data] : List Str),
      ((fun _ => (⟨200, "hi".data⟩ : HttpResponse)) u).status < 400 ∧
        ((fun _ => (⟨200, "hi".data⟩ : HttpResponse)) u).status
          ∉ defaultDlConfig.retryCodes) ∧
    (∀ r ∈ (downloadAll defaultDlConfig (fun _ => ⟨200, "hi".data⟩)
        ["https://example.com/a".data, "https://example.com/b".data]
        (downloadAll defaultDlConfig (fun _ => ⟨200, "hi".data⟩)
          ["https://example.com/a".data, "https://example.com/b".data]
          ⟨[], [], [], [], 0, 3/2⟩).2).1, ∃ p, r = some (.skipped p)) := by
  have h := c6_fetch_idempotent defaultDlConfig (fun _ => ⟨200, "hi".data⟩)
    ["https://example.com/a".data, "https://example.com/b".data]
    ⟨[], [], [], [], 0, 3/2⟩
    (by
      intro u hu
      refine ⟨by norm_num, ?_⟩
      show (200 : Nat) ∉ defaultDlConfig.retryCodes
      decide)
  refine ⟨?_, h.1⟩
  intro u hu
  refine ⟨by norm_num, ?_⟩
  show (200 : Nat) ∉ defaultDlConfig.retryCodes
  decide

/-! ## The media fetcher (`src/media_downloader.py`, `MediaDownloader`)

The network is an abstract deterministic environment; every operation the
code performs on it is recorded in a trace so that fetch counts can be
stated.  `hashName` stands for the `f"media_{hash(url)}"` fallback name and
`md5hex8` for the first eight hex digits of `md5(url)` — both opaque,
deterministic functions of the URL. -/

/-- Python `netloc.replace('www.', '')`: remove every (non-overlapping,
left-to-right) occurrence. -/
def removeWWW : Str → Str
  | 'w' :: 'w' :: 'w' :: '.' :: rest => removeWWW rest
  | c :: rest => c :: removeWWW rest
  | [] => []

/-- `MediaDownloader.is_same_domain` (media_downloader.py:42-60). -/
def isSameDomain (url baseUrl : Str) : Bool :=
  removeWWW (parseUrl url).netloc = removeWWW (parseUrl baseUrl).netloc

/-- `MediaDownloader.get_url_key` (media_downloader.py:115-128):
`f"{scheme}://{netloc}{path}"`. -/
def getUrlKey (url : Str) : Str :=
  schemeNetloc (parseUrl url) ++ (parseUrl url).path

structure MediaEnv where
  /-- `session.get(url, stream=True)`: the streamed body, or `none` for a
  `RequestException`. -/
  get : Str → Option Str
  /-- `session.head(url)`: `none` for an exception, `some none` for a response
  without `content-length`, `some (some n)` for a declared length. -/
  head : Str → Option (Option Nat)
  /-- the ranged GET used to compare small files, `none` on exception. -/
  rangeGet : Str → Option Str
  /-- `f"media_{hash(url)}"`. -/
  hashName : Str → Str
  /-- `hashlib.md5(url.encode()).hexdigest()[:8]`. -/
  md5hex8 : Str → Str

inductive NetOp : Type where
  | contentGet (url : Str) : NetOp
  | headReq (url : Str) : NetOp
  | rangeReq (url : Str) : NetOp
deriving DecidableEq

inductive MediaOutcome : Type where
  | existsAlready : MediaOutcome
  | downloaded : MediaOutcome
deriving DecidableEq

structure MediaResult where
  url : Str
  filePath : List Str
  outcome : MediaOutcome
deriving DecidableEq

structure MediaState where
  downloadedUrls : List (Str × List Str)
  files : List (List Str × Str)
  mediaInfo : List (Str × List Str)
deriving DecidableEq

def mapLookup (m : List (Str × List Str)) (k : Str) : Option (List Str) :=
  match m with
  | [] => none
  | e :: rest => if e.1 = k then some e.2 else mapLookup rest k

/-- The media path segments below `HTML` (media_downloader.py:163-185): the
split URL path, or the hash fallback name when the path is empty. -/
def mediaPathSegments (env : MediaEnv) (url : Str) : List Str :=
  if stripSlashes (parseUrl url).path = [] then [env.hashName url]
  else splitOnChar '/' (stripSlashes (parseUrl url).path)

def mediaFilePath (env : MediaEnv) (url : Str) : List Str :=
  "HTML".data :: mediaPathSegments env url

/-- `os.path.splitext(name)[1]`. -/
def splitextExt (name : Str) : Str :=
  if '.' ∈ name then '.' :: (name.reverse.takeWhile (fun c => c ≠ '.')).reverse
  else []

/-- `f"{name}_{url_hash}{ext}"` (media_downloader.py:202-204). -/
def renameWithHash (env : MediaEnv) (url name : Str) : Str :=
  splitextStem name ++ '_' :: env.md5hex8 url ++ splitextExt name

def renamedMediaFilePath (env : MediaEnv) (url : Str) : List Str :=
  "HTML".data ::
    ((mediaPathSegments env url).dropLast ++
      [renameWithHash env url ((mediaPathSegments env url).getLastD [])])

/-- `MediaDownloader._is_same_file` (media_downloader.py:266-290): compare the
local size with the HEAD `content-length`, else a byte-range prefix for small
files; any failure yields `False`; returns the verdict and the network trace
of the probe. -/
def isSameFile (env : MediaEnv) (files : List (List Str × Str)) (url : Str)
    (p : List Str) : Bool × List NetOp :=
  match fsLookup files p with
  | none => (false, [])
  | some content =>
    match env.head url with
    | none => (false, [.headReq url])
    | some (some n) => (content.length = n, [.headReq url])
    | some none =>
      if content.length < 1024 then
        match env.rangeGet url with
        | none => (false, [.headReq url, .rangeReq url])
        | some rc =>
          (content.take 1024 = rc.take (content.take 1024).length,
            [.headReq url, .rangeReq url])
      else (false, [.headReq url])

/-- The `while retries <= self.max_retries` fetch loop of `download_media`
(media_downloader.py:211-264): on success write the streamed body, append the
`media_download_info` entry, record `downloaded_urls[url_key] = file_path`
and return; on an exception retry; when attempts run out return `None`. -/
def mediaFetchGo (cfg : DlConfig) (env : MediaEnv) (url key : Str)
    (p : List Str) : Nat → Nat → MediaState →
      Option MediaResult × MediaState × List NetOp
  | 0, _, st => (none, st, [])
  | fuel + 1, retries, st =>
    if cfg.maxRetries < retries then (none, st, [])
    else
      match env.get url with
      | some content =>
        (some ⟨url, p, .downloaded⟩,
          { st with files := fsWrite st.files p content,
                    mediaInfo := st.mediaInfo ++ [(url, p)],
                    downloadedUrls := st.downloadedUrls ++ [(key, p)] },
          [.contentGet url])
      | none =>
        ((mediaFetchGo cfg env url key p fuel (retries + 1) st).1,
          (mediaFetchGo cfg env url key p fuel (retries + 1) st).2.1,
          .contentGet url :: (mediaFetchGo cfg env url key p fuel (retries + 1) st).2.2)

/-- `MediaDownloader.download_media` (media_downloader.py:130-264): skip
external resources; short-circuit on a `downloaded_urls` hit with no network
activity; on a path collision probe the remote file and either reuse the
local copy (recording the key) or retry under a hash-suffixed name; otherwise
fetch into the mapped path. -/
def downloadMedia (cfg : DlConfig) (env : MediaEnv) (url baseUrl : Str)
    (st : MediaState) : Option MediaResult × MediaState × List NetOp :=
  if isSameDomain url baseUrl = false then (none, st, [])
  else
    match mapLookup st.downloadedUrls (getUrlKey url) with
    | some p => (some ⟨url, p, .existsAlready⟩, st, [])
    | none =>
      if fsLookup st.files (mediaFilePath env url) = none then
        mediaFetchGo cfg env url (getUrlKey url) (mediaFilePath env url)
          (cfg.maxRetries + 2) 0 st
      else if (isSameFile env st.files url (mediaFilePath env url)).1 = true then
        (some ⟨url, mediaFilePath env url, .existsAlready⟩,
          { st with downloadedUrls :=
              st.downloadedUrls ++ [(getUrlKey url, mediaFilePath env url)] },
          (isSameFile env st.files url (mediaFilePath env url)).2)
      else
        ((mediaFetchGo cfg env url (getUrlKey url) (renamedMediaFilePath env url)
            (cfg.maxRetries + 2) 0 st).1,
          (mediaFetchGo cfg env url (getUrlKey url) (renamedMediaFilePath env url)
            (cfg.maxRetries + 2) 0 st).2.1,
          (isSameFile env st.files url (mediaFilePath env url)).2 ++
            (mediaFetchGo cfg env url (getUrlKey url) (renamedMediaFilePath env url)
              (cfg.maxRetries + 2) 0 st).2.2)

/-- A whole run of media fetches: the (url, page-base) pairs processed across
all pages, in order, with the concatenated network trace. -/
def runMedia (cfg : DlConfig) (env : MediaEnv) :
    List (Str × Str) → MediaState → MediaState × List NetOp
  | [], st => (st, [])
  | (url, base) :: rest, st =>
    ((runMedia cfg env rest (downloadMedia cfg env url base st).2.1).1,
      (downloadMedia cfg env url base st).2.2 ++
        (runMedia cfg env rest (downloadMedia cfg env url base st).2.1).2)

/-- The number of physical content fetches for a given normalized key in a
network trace. -/
def contentGetsFor (k : Str) (ops : List NetOp) : Nat :=
  (ops.filter (fun op => match op with
    | .contentGet u => getUrlKey u = k
    | _ => false)).length

/-! ### Facts about the media fetcher -/

theorem mapLookup_append_left (m : List (Str × List Str)) (xs : List (Str × List Str))
    (k : Str) (p : List Str) (h : mapLookup m k = some p) :
    mapLookup (m ++ xs) k = some p := by
  induction m with
  | nil => simp [mapLookup] at h
  | cons e rest ih =>
    simp only [mapLookup] at h ⊢
    by_cases he : e.1 = k
    · rw [if_pos he] at h ⊢
      exact h
    · rw [if_neg he] at h ⊢
      exact ih h

theorem mapLookup_append_ne_none (m : List (Str × List Str))
    (xs : List (Str × List Str)) (k : Str) (h : mapLookup m k ≠ none) :
    mapLookup (m ++ xs) k ≠ none := by
  rcases hm : mapLookup m k with _ | p
  · exact absurd hm h
  · rw [mapLookup_append_left m xs k p hm]
    exact Option.noConfusion

theorem mapLookup_append_self (m : List (Str × List Str)) (k : Str) (p : List Str)
    (h : mapLookup m k = none) : mapLookup (m ++ [(k, p)]) k = some p := by
  induction m with
  | nil => simp [mapLookup]
  | cons e rest ih =>
    simp only [mapLookup] at h ⊢
    by_cases he : e.1 = k
    · rw [if_pos he] at h
      exact Option.noConfusion h
    · rw [if_neg he] at h ⊢
      exact ih h

theorem contentGetsFor_append (k : Str) (a b : List NetOp) :
    contentGetsFor k (a ++ b) = contentGetsFor k a + contentGetsFor k b := by
  simp [contentGetsFor, List.filter_append]

theorem contentGetsFor_nil (k : Str) : contentGetsFor k [] = 0 := rfl

theorem contentGetsFor_single (k : Str) (u : Str) :
    contentGetsFor k [NetOp.contentGet u] = if getUrlKey u = k then 1 else 0 := by
  by_cases h : getUrlKey u = k
  · simp [contentGetsFor, h]
  · simp [contentGetsFor, h]

theorem contentGetsFor_isSameFile (k : Str) (env : MediaEnv)
    (files : List (List Str × Str)) (url : Str) (p : List Str) :
    contentGetsFor k (isSameFile env files url p).2 = 0 := by
  unfold isSameFile
  split
  · rfl
  · split
    · simp [contentGetsFor]
    · simp [contentGetsFor]
    · split
      · split
        · simp [contentGetsFor]
        · simp [contentGetsFor]
      · simp [contentGetsFor]

/-- With a responsive server the fetch loop succeeds on its first attempt,
performing exactly one physical GET and recording the key. -/
theorem mediaFetchGo_success (cfg : DlConfig) (env : MediaEnv) (url key : Str)
    (p : List Str) (st : MediaState) (content : Str)
    (hget : env.get url = some content) :
    mediaFetchGo cfg env url key p (cfg.maxRetries + 2) 0 st =
      (some ⟨url, p, .downloaded⟩,
        { st with files := fsWrite st.files p content,
                  mediaInfo := st.mediaInfo ++ [(url, p)],
                  downloadedUrls := st.downloadedUrls ++ [(key, p)] },
        [.contentGet url]) := by
  rw [show cfg.maxRetries + 2 = (cfg.maxRetries + 1) + 1 from rfl]
  rw [mediaFetchGo]
  rw [if_neg (by omega)]
  rw [hget]

/-- A `downloaded_urls` hit short-circuits: same-domain URL, key already
recorded — the recorded path is returned, the state is untouched, and no
network operation happens. -/
theorem downloadMedia_hit (cfg : DlConfig) (env : MediaEnv) (url base : Str)
    (st : MediaState) (p : List Str) (hdom : isSameDomain url base = true)
    (hml : mapLookup st.downloadedUrls (getUrlKey url) = some p) :
    downloadMedia cfg env url base st = (some ⟨url, p, .existsAlready⟩, st, []) := by
  unfold downloadMedia
  rw [if_neg (by rw [hdom]; exact Bool.noConfusion)]
  rw [hml]

theorem mediaFetchGo_records (cfg : DlConfig) (env : MediaEnv) (url key : Str)
    (p : List Str) (r : MediaResult) :
    ∀ fuel retries st, (mediaFetchGo cfg env url key p fuel retries st).1 = some r →
      r.filePath = p ∧
      (mediaFetchGo cfg env url key p fuel retries st).2.1.downloadedUrls
        = st.downloadedUrls ++ [(key, p)] := by
  intro fuel
  induction fuel with
  | zero => intro retries st h; exact absurd h (by simp [mediaFetchGo])
  | succ fuel ih =>
    intro retries st h
    rw [mediaFetchGo] at h ⊢
    by_cases h1 : cfg.maxRetries < retries
    · rw [if_pos h1] at h
      exact absurd h (by simp)
    · rw [if_neg h1] at h ⊢
      rcases hget : env.get url with _ | content
      · rw [hget] at h
        have h2 : (mediaFetchGo cfg env url key p fuel (retries + 1) st).1
            = some r := by simpa using h
        have h3 := ih _ _ h2
        exact ⟨h3.1, by simpa using h3.2⟩
      · rw [hget] at h
        have hr : r = ⟨url, p, .downloaded⟩ := by simpa using h.symm
        subst hr
        exact ⟨rfl, by simp⟩

/-- Whenever `download_media` reports a result, the process-wide map holds
exactly the reported local path for the URL's normalized key. -/
theorem downloadMedia_records (cfg : DlConfig) (env : MediaEnv) (url base : Str)
    (st : MediaState) (r : MediaResult)
    (h : (downloadMedia cfg env url base st).1 = some r) :
    mapLookup (downloadMedia cfg env url base st).2.1.downloadedUrls
      (getUrlKey url) = some r.filePath := by
  unfold downloadMedia at h ⊢
  by_cases hdom : isSameDomain url base = false
  · rw [if_pos hdom] at h
    exact absurd h (by simp)
  · rw [if_neg hdom] at h ⊢
    rcases hml : mapLookup st.downloadedUrls (getUrlKey url) with _ | p
    · rw [hml] at h
      by_cases hfs : fsLookup st.files (mediaFilePath env url) = none
      · rw [if_pos hfs] at h ⊢
        have hrec := mediaFetchGo_records cfg env url (getUrlKey url)
          (mediaFilePath env url) r _ _ _ h
        rw [hrec.2, hrec.1]
        exact mapLookup_append_self _ _ _ hml
      · rw [if_neg hfs] at h ⊢
        by_cases hsame : (isSameFile env st.files url (mediaFilePath env url)).1 = true
        · rw [if_pos hsame] at h ⊢
          have hr : r = ⟨url, mediaFilePath env url, .existsAlready⟩ := by
            simpa using h.symm
          subst hr
          exact mapLookup_append_self _ _ _ hml
        · rw [if_neg hsame] at h ⊢
          have hrec := mediaFetchGo_records cfg env url (getUrlKey url)
            (renamedMediaFilePath env url) r _ _ _ h
          rw [hrec.2, hrec.1]
          exact mapLookup_append_self _ _ _ hml
    · rw [hml] at h
      have hr : r = ⟨url, p, .existsAlready⟩ := by simpa using h.symm
      subst hr
      exact hml

/-- Per-call accounting: a key already in `downloaded_urls` sees no physical
fetch and stays recorded; any call performs at most one physical fetch per
key; and a call that does fetch a key records it. -/
theorem downloadMedia_call_facts (cfg : DlConfig) (env : MediaEnv)
    (url base : Str) (st : MediaState) (k : Str)
    (henv : ∀ u, env.get u ≠ none) :
    (mapLookup st.downloadedUrls k ≠ none →
      contentGetsFor k (downloadMedia cfg env url base st).2.2 = 0 ∧
      mapLookup (downloadMedia cfg env url base st).2.1.downloadedUrls k ≠ none) ∧
    contentGetsFor k (downloadMedia cfg env url base st).2.2 ≤ 1 ∧
    (1 ≤ contentGetsFor k (downloadMedia cfg env url base st).2.2 →
      mapLookup (downloadMedia cfg env url base st).2.1.downloadedUrls k ≠ none) := by
  obtain ⟨content, hget⟩ := Option.ne_none_iff_exists'.mp (henv url)
  unfold downloadMedia
  by_cases hdom : isSameDomain url base = false
  · rw [if_pos hdom]
    exact ⟨fun h => ⟨rfl, h⟩, by simp [contentGetsFor], by simp [contentGetsFor]⟩
  · rw [if_neg hdom]
    rcases hml : mapLookup st.downloadedUrls (getUrlKey url) with _ | p
    · by_cases hfs : fsLookup st.files (mediaFilePath env url) = none
      · rw [if_pos hfs, mediaFetchGo_success cfg env url (getUrlKey url)
          (mediaFilePath env url) st content hget]
        refine ⟨?_, ?_, ?_⟩
        · intro h
          have hkne : ¬ (getUrlKey url = k) := by
            intro hk
            rw [hk] at hml
            exact h hml
          refine ⟨by rw [contentGetsFor_single, if_neg hkne], ?_⟩
          exact mapLookup_append_ne_none _ _ _ h
        · rw [contentGetsFor_single]
          split <;> omega
        · intro h
          rw [contentGetsFor_single] at h
          by_cases hk : getUrlKey url = k
          · rw [← hk]
            rw [mapLookup_append_self _ _ _ hml]
            exact Option.noConfusion
          · rw [if_neg hk] at h
            omega
      · rw [if_neg hfs]
        by_cases hsame : (isSameFile env st.files url (mediaFilePath env url)).1 = true
        · rw [if_pos hsame]
          refine ⟨?_, ?_, ?_⟩
          · intro h
            exact ⟨contentGetsFor_isSameFile k env st.files url _,
              mapLookup_append_ne_none _ _ _ h⟩
          · rw [contentGetsFor_isSameFile]
            omega
          · intro h
            rw [contentGetsFor_isSameFile] at h
            omega
        · rw [if_neg hsame]
          rw [mediaFetchGo_success cfg env url (getUrlKey url)
            (renamedMediaFilePath env url) st content hget]
          refine ⟨?_, ?_, ?_⟩
          · intro h
            have hkne : ¬ (getUrlKey url = k) := by
              intro hk
              rw [hk] at hml
              exact h hml
            refine ⟨?_, mapLookup_append_ne_none _ _ _ h⟩
            rw [contentGetsFor_append, contentGetsFor_isSameFile,
              contentGetsFor_single, if_neg hkne]
          · rw [contentGetsFor_append, contentGetsFor_isSameFile,
              contentGetsFor_single]
            split <;> omega
          · intro h
            rw [contentGetsFor_append, contentGetsFor_isSameFile,
              contentGetsFor_single] at h
            by_cases hk : getUrlKey url = k
            · rw [← hk, mapLookup_append_self _ _ _ hml]
              exact Option.noConfusion
            · rw [if_neg hk] at h
              omega
    · refine ⟨fun h => ⟨rfl, h⟩, by simp [contentGetsFor], ?_⟩
      intro h
      simp [contentGetsFor] at h

/-- Across a whole run, once a key is recorded no further physical fetch for
it happens, and in total at most one physical fetch per key is performed. -/
theorem runMedia_dedup (cfg : DlConfig) (env : MediaEnv) (k : Str)
    (henv : ∀ u, env.get u ≠ none) :
    ∀ (pairs : List (Str × Str)) (st : MediaState),
      (mapLookup st.downloadedUrls k ≠ none →
        contentGetsFor k (runMedia cfg env pairs st).2 = 0) ∧
      contentGetsFor k (runMedia cfg env pairs st).2 ≤ 1 := by
  intro pairs
  induction pairs with
  | nil =>
    intro st
    exact ⟨fun _ => rfl, by simp [runMedia, contentGetsFor]⟩
  | cons pr rest ih =>
    intro st
    obtain ⟨url, base⟩ := pr
    have hcall := downloadMedia_call_facts cfg env url base st k henv
    constructor
    · intro h
      have h1 := hcall.1 h
      show contentGetsFor k ((downloadMedia cfg env url base st).2.2 ++ _) = 0
      rw [contentGetsFor_append, h1.1, (ih _).1 h1.2]
    · show contentGetsFor k ((downloadMedia cfg env url base st).2.2 ++ _) ≤ 1
      rw [contentGetsFor_append]
      by_cases hz : 1 ≤ contentGetsFor k (downloadMedia cfg env url base st).2.2
      · have hrest := (ih _).1 (hcall.2.2 hz)
        have hle := hcall.2.1
        omega
      · have hrest := (ih (downloadMedia cfg env url base st).2.1).2
        omega

/-- C7: media deduplication.  (1) A hit in the process-wide `downloaded_urls`
map short-circuits with outcome `exists`, the recorded local path, an
untouched state and no network operation; (2) with a responsive server, a
whole run performs at most one physical content fetch per normalized key;
(3) after any call that reports a result for a URL, a later fetch of any URL
with the same normalized key from any page returns the same local path with
no network operation. -/
theorem c7_media_dedup (cfg : DlConfig) (env : MediaEnv) :
    (∀ url base st p, isSameDomain url base = true →
        mapLookup st.downloadedUrls (getUrlKey url) = some p →
        downloadMedia cfg env url base st
          = (some ⟨url, p, .existsAlready⟩, st, [])) ∧
    ((∀ u, env.get u ≠ none) → ∀ pairs st k,
        contentGetsFor k (runMedia cfg env pairs st).2 ≤ 1) ∧
    (∀ url url' base base' st r, getUrlKey url' = getUrlKey url →
        isSameDomain url' base' = true →
        (downloadMedia cfg env url base st).1 = some r →
        downloadMedia cfg env url' base' (downloadMedia cfg env url base st).2.1
          = (some ⟨url', r.filePath, .existsAlready⟩,
              (downloadMedia cfg env url base st).2.1, [])) := by
  refine ⟨downloadMedia_hit cfg env, ?_, ?_⟩
  · intro henv pairs st k
    exact (runMedia_dedup cfg env k henv pairs st).2
  · intro url url' base base' st r hk hdom h
    have hrec := downloadMedia_records cfg env url base st r h
    exact downloadMedia_hit cfg env url' base' _ r.filePath hdom
      (by rw [hk]; exact hrec)

/-- A concrete deterministic network for witnesses. -/
def env0 : MediaEnv :=
  ⟨fun _ => some "img-bytes".data, fun _ => some (some 9), fun _ => some [],
    fun _ => "media_0".data, fun _ => "abcd1234".data⟩

/-- C7 witness: the same image embedded by two pages of one site — one
physical fetch over the whole run, and the second report carries the same
path with no network traffic. -/
theorem c7_media_dedup_witness :
    (∀ u, env0.get u ≠ none) ∧
    contentGetsFor (getUrlKey "https://example.com/img/pic.png".data)
        (runMedia defaultDlConfig env0
          [("https://example.com/img/pic.png".data, "https://example.com/p1".data),
           ("https://example.com/img/pic.png".data, "https://example.com/p2".data)]
          ⟨[], [], []⟩).2 ≤ 1 ∧
    (getUrlKey "https://example.com/img/pic.png".data
        = getUrlKey "https://example.com/img/pic.png".data ∧
      isSameDomain "https://example.com/img/pic.png".data
          "https://example.com/p2".data = true ∧
      (downloadMedia defaultDlConfig env0 "https://example.com/img/pic.png".data
          "https://example.com/p1".data ⟨[], [], []⟩).1
        = some ⟨"https://example.com/img/pic.png".data,
            mediaFilePath env0 "https://example.com/img/pic.png".data,
            .downloaded⟩) ∧
    downloadMedia defaultDlConfig env0 "https://example.com/img/pic.png".data
        "https://example.com/p2".data
        (downloadMedia defaultDlConfig env0 "https://example.com/img/pic.png".data
          "https://example.com/p1".data ⟨[], [], []⟩).2.1
      = (some ⟨"https://example.com/img/pic.png".data,
            mediaFilePath env0 "https://example.com/img/pic.png".data,
            .existsAlready⟩,
          (downloadMedia defaultDlConfig env0
            "https://example.com/img/pic.png".data
            "https://example.com/p1".data ⟨[], [], []⟩).2.1, []) := by
  have henv : ∀ u, env0.get u ≠ none := fun u => by
    show some "img-bytes".data ≠ none
    exact Option.noConfusion
  have hcall : (downloadMedia defaultDlConfig env0
      "https://example.com/img/pic.png".data
      "https://example.com/p1".data ⟨[], [], []⟩).1
      = some ⟨"https://example.com/img/pic.png".data,
          mediaFilePath env0 "https://example.com/img/pic.png".data,
          .downloaded⟩ := by decide
  refine ⟨henv, (c7_media_dedup defaultDlConfig env0).2.1 henv _ _ _,
    ⟨rfl, by decide, hcall⟩, ?_⟩
  exact (c7_media_dedup defaultDlConfig env0).2.2 _ _ _ _ _ _ rfl (by decide) hcall

/-! ### The Path Mapper claim (C3) -/

/-- The spec's sanitisation blacklist. -/
def sanitizationBlacklist : Str := "<>:\"/\\|?*".data

/-- C3: the claim that the mapping sanitises against the blacklist (and
truncates long paths with a content hash) is false: no sanitisation or
truncation exists, so a URL whose path carries a blacklist character (`<`
here) yields a local path segment containing that character verbatim. -/
theorem c3_path_blacklist_counterexample :
    (∃ seg ∈ pageFilePath "https://example.com/a<b".data,
      ∃ c ∈ seg, c ∈ sanitizationBlacklist) ∧
    (∃ seg ∈ mediaFilePath env0 "https://example.com/a<b.png".data,
      ∃ c ∈ seg, c ∈ sanitizationBlacklist) := by
  constructor
  · exact ⟨"a<b.html".data, by decide, '<', by decide, by decide⟩
  · exact ⟨"a<b.png".data, by decide, '<', by decide, by decide⟩

/-- C3 (amended): the mapping is deterministic — the page/sidecar paths are a
pure function of the parsed URL, and within one run the media fetcher always
reports one and the same local path for a URL (the `downloaded_urls` map
pins the first reported path) — but no sanitisation or truncation is
applied. -/
theorem c3_path_mapping_amended (cfg : DlConfig) (env : MediaEnv) :
    (∀ u v, parseUrl u = parseUrl v →
      pageFilePath u = pageFilePath v ∧ metaFilePath u = metaFilePath v) ∧
    (∀ url base base' st r r',
      (downloadMedia cfg env url base st).1 = some r →
      (downloadMedia cfg env url base'
          (downloadMedia cfg env url base st).2.1).1 = some r' →
      r'.filePath = r.filePath) := by
  constructor
  · intro u v h
    constructor
    · simp only [pageFilePath, htmlFileSegments, h]
    · simp only [metaFilePath, htmlFileSegments, h]
  · intro url base base' st r r' h1 h2
    have hrec := downloadMedia_records cfg env url base st r h1
    rcases hdom : isSameDomain url base' with _ | _
    · rw [downloadMedia] at h2
      rw [if_pos (by rw [hdom])] at h2
      exact absurd h2 (by simp)
    · rw [downloadMedia_hit cfg env url base' _ r.filePath hdom hrec] at h2
      have : (⟨url, r.filePath, .existsAlready⟩ : MediaResult) = r' := by
        simpa using h2
      rw [← this]

/-- C3 amended-claim witness: equal parses give equal paths, and the second
fetch of the same URL reports the first call's path. -/
theorem c3_path_mapping_amended_witness :
    (parseUrl "https://example.com/x".data = parseUrl "https://example.com/x".data ∧
      pageFilePath "https://example.com/x".data
        = pageFilePath "https://example.com/x".data) ∧
    ((downloadMedia defaultDlConfig env0 "https://example.com/img/pic.png".data
        "https://example.com/p1".data ⟨[], [], []⟩).1
      = some ⟨"https://example.com/img/pic.png".data,
          mediaFilePath env0 "https://example.com/img/pic.png".data,
          .downloaded⟩ ∧
    (downloadMedia defaultDlConfig env0 "https://example.com/img/pic.png".data
        "https://example.com/p2".data
        (downloadMedia defaultDlConfig env0 "https://example.com/img/pic.png".data
          "https://example.com/p1".data ⟨[], [], []⟩).2.1).1
      = some ⟨"https://example.com/img/pic.png".data,
          mediaFilePath env0 "https://example.com/img/pic.png".data,
          .existsAlready⟩ ∧
    (⟨"https://example.com/img/pic.png".data,
        mediaFilePath env0 "https://example.com/img/pic.png".data,
        .existsAlready⟩ : MediaResult).filePath
      = (⟨"https://example.com/img/pic.png".data,
          mediaFilePath env0 "https://example.com/img/pic.png".data,
          .downloaded⟩ : MediaResult).filePath) := by
  have hcall1 : (downloadMedia defaultDlConfig env0
      "https://example.com/img/pic.png".data
      "https://example.com/p1".data ⟨[], [], []⟩).1
      = some ⟨"https://example.com/img/pic.png".data,
          mediaFilePath env0 "https://example.com/img/pic.png".data,
          .downloaded⟩ := by decide
  have hcall2 : (downloadMedia defaultDlConfig env0
      "https://example.com/img/pic.png".data
      "https://example.com/p2".data
      (downloadMedia defaultDlConfig env0 "https://example.com/img/pic.png".data
        "https://example.com/p1".data ⟨[], [], []⟩).2.1).1
      = some ⟨"https://example.com/img/pic.png".data,
          mediaFilePath env0 "https://example.com/img/pic.png".data,
          .existsAlready⟩ := by decide
  refine ⟨⟨rfl, ((c3_path_mapping_amended defaultDlConfig env0).1 _ _ rfl).1⟩,
    hcall1, hcall2, ?_⟩
  exact (c3_path_mapping_amended defaultDlConfig env0).2 _ _ _ _ _ _ hcall1 hcall2

/-! ## The link rewriter (`src/link_validator.py`, `LinkValidator`)

One document's pass: find markdown links with the regex
`\[([^\]]*)\]\(([^)]+)\)` (span of group 2 recorded), classify them, then
rewrite the internal ones in descending span-start order, shifting the stored
end offsets of earlier links after each replacement — exactly as the code
does. -/

structure MdLink where
  text : Str
  url : Str
  start : Nat
  /-- The stored end offset of the URL group.  An `Int`, because the
  position-shifting of `_fix_internal_links` adds a signed length delta. -/
  stop : Int
deriving DecidableEq, Repr

/-- Try the regex at the current position (which must hold `[`): greedy
`[^\]]*` text, then `](`, then nonempty greedy `[^)]+` target, then `)`. -/
def tryMatchAt (cs : Str) : Option (Str × Str) :=
  match cs with
  | '[' :: rest =>
    match rest.drop (rest.takeWhile (fun c => c ≠ ']')).length with
    | ']' :: '(' :: rest2 =>
      if (rest2.takeWhile (fun c => c ≠ ')')).length = 0 then none
      else
        match rest2.drop (rest2.takeWhile (fun c => c ≠ ')')).length with
        | ')' :: _ =>
          some (rest.takeWhile (fun c => c ≠ ']'), rest2.takeWhile (fun c => c ≠ ')'))
        | _ => none
    | _ => none
  | _ => none

/-- `re.finditer` over the document: try each position left to right, and on a
match continue after it; the recorded span is that of the URL group. -/
def findLinksGo : Nat → Str → Nat → List MdLink
  | 0, _, _ => []
  | fuel + 1, cs, pos =>
    match cs with
    | [] => []
    | _ :: rest =>
      match tryMatchAt cs with
      | some (t, u) =>
        ⟨t, u, pos + t.length + 3, (pos + t.length + 3 + u.length : Int)⟩ ::
          findLinksGo fuel (cs.drop (t.length + u.length + 4))
            (pos + t.length + u.length + 4)
      | none => findLinksGo fuel rest (pos + 1)

def findLinks (content : Str) : List MdLink :=
  findLinksGo (content.length + 1) content 0

def isHttpScheme (u : Str) : Bool :=
  (parseUrl u).scheme = "http".data || (parseUrl u).scheme = "https".data

/-- `_find_links_in_markdown` classification (link_validator.py:80-101): image
links (target under `./images/`) are dropped, targets with an `http`/`https`
scheme are recorded as external, everything else is an internal link kept
with its span.  Returns (internal links, external (url, text) records). -/
def classifyLinks : List MdLink → List MdLink × List (Str × Str)
  | [] => ([], [])
  | l :: ls =>
    if "./images/".data.isPrefixOf l.url then classifyLinks ls
    else if isHttpScheme l.url then
      ((classifyLinks ls).1, (l.url, l.text) :: (classifyLinks ls).2)
    else (l :: (classifyLinks ls).1, (classifyLinks ls).2)

/-- `sorted(links, key=lambda x: x['position'][0], reverse=True)` — stable
descending insertion sort on span starts. -/
def insertDesc (l : MdLink) : List MdLink → List MdLink
  | [] => [l]
  | x :: xs => if x.start ≤ l.start then l :: x :: xs else x :: insertDesc l xs

def sortLinksDesc : List MdLink → List MdLink
  | [] => []
  | l :: ls => insertDesc l (sortLinksDesc ls)

/-- Python `content[start:end]` for the offsets the pass manipulates. -/
def pySlice (content : Str) (start : Nat) (stop : Int) : Str :=
  (content.drop start).take (stop - start).toNat

/-- `content[:start] + rep + content[end:]`. -/
def pySpliceAt (content : Str) (start : Nat) (stop : Int) (rep : Str) : Str :=
  content.take start ++ rep ++ content.drop stop.toNat

/-- `os.path.dirname` for the relative POSIX paths the pass uses. -/
def dirName (p : Str) : Str :=
  if '/' ∈ p then ((p.reverse.dropWhile (fun c => c ≠ '/')).drop 1).reverse
  else []

def joinSlash : List Str → Str
  | [] => []
  | [s] => s
  | s :: rest => s ++ '/' :: joinSlash rest

def dropCommon : List Str → List Str → List Str × List Str
  | a :: as, b :: bs => if a = b then dropCommon as bs else (a :: as, b :: bs)
  | as, bs => (as, bs)

/-- `os.path.relpath(to_file, from_dir)` on POSIX relative paths. -/
def relPath (toFile fromDir : Str) : Str :=
  joinSlash
    (List.replicate
        (dropCommon (splitOnChar '/' toFile) (splitOnChar '/' fromDir)).2.length
        "..".data ++
      (dropCommon (splitOnChar '/' toFile) (splitOnChar '/' fromDir)).1)

/-- `rel_path.replace('\\', '/')`. -/
def backslashToSlash (s : Str) : Str :=
  s.map (fun c => if c = '\\' then '/' else c)

/-- The replacement text for a mapped target (link_validator.py:139-151). -/
def relFor (fileRelPath target : Str) : Str :=
  if dirName fileRelPath ≠ [] then
    backslashToSlash (relPath target (dirName fileRelPath))
  else backslashToSlash target

def lookupStr (m : List (Str × Str)) (k : Str) : Option Str :=
  match m with
  | [] => none
  | e :: rest => if e.1 = k then some e.2 else lookupStr rest k

/-- The already-relative-markdown-link skip (link_validator.py:131). -/
def skipRelMd (url : Str) : Prop :=
  ".md".data.isSuffixOf url ∧ ('/' ∈ url ∨ '\\' ∈ url)

instance (url : Str) : Decidable (skipRelMd url) := by
  unfold skipRelMd
  infer_instance

structure FixState where
  content : Str
  fixed : List (Str × Str)
  broken : List (Str × Str)
  updated : Bool
deriving DecidableEq, Repr

/-- After a replacement at `startPos` with length delta `delta`, the code
shifts the stored end offset of every link whose start lies before
`startPos` (link_validator.py:165-172). -/
def shiftEarlier (startPos : Nat) (delta : Int) (ls : List MdLink) : List MdLink :=
  ls.map (fun l => if l.start < startPos then { l with stop := l.stop + delta } else l)

/-- The rewrite loop of `_fix_internal_links` over one document's internal
links in descending-start order: skip already-relative `.md` links, replace
mapped targets by splicing at the stored span and shifting earlier links'
ends, and report unmapped targets as broken.  The fuel argument only bounds
the recursion: one unit per processed link, so `ls.length` always suffices. -/
def fixLoop (pagesMap : List (Str × Str)) (fileRelPath : Str) :
    Nat → List MdLink → FixState → FixState
  | 0, _, st => st
  | fuel + 1, ls, st =>
    match ls with
    | [] => st
    | l :: rest =>
      if skipRelMd l.url then fixLoop pagesMap fileRelPath fuel rest st
      else
        match lookupStr pagesMap l.url with
        | some target =>
          fixLoop pagesMap fileRelPath fuel
            (shiftEarlier l.start
              ((relFor fileRelPath target).length -
                (pySlice st.content l.start l.stop).length) rest)
            ⟨pySpliceAt st.content l.start l.stop (relFor fileRelPath target),
              st.fixed ++ [(l.url, relFor fileRelPath target)], st.broken, true⟩
        | none =>
          fixLoop pagesMap fileRelPath fuel rest
            { st with broken := st.broken ++ [(l.url, l.text)] }

/-- One document's `_fix_internal_links` pass. -/
def fixInternalLinks (pagesMap : List (Str × Str)) (fileRelPath content : Str) :
    FixState :=
  fixLoop pagesMap fileRelPath
    (sortLinksDesc (classifyLinks (findLinks content)).1).length
    (sortLinksDesc (classifyLinks (findLinks content)).1)
    ⟨content, [], [], false⟩

/-- The document as left on disk: rewritten only when at least one
replacement set `file_updated` (link_validator.py:181-185). -/
def writtenBack (pagesMap : List (Str × Str)) (fileRelPath content : Str) : Str :=
  if (fixInternalLinks pagesMap fileRelPath content).updated = true then
    (fixInternalLinks pagesMap fileRelPath content).content
  else content

/-! ### Facts about the rewrite pass -/

theorem shiftEarlier_witness (s : Nat) (d : Int) (ls : List MdLink) (l : MdLink)
    (h : l ∈ ls) :
    ∃ l2 ∈ shiftEarlier s d ls, l2.url = l.url ∧ l2.text = l.text := by
  refine ⟨if l.start < s then { l with stop := l.stop + d } else l, ?_, ?_, ?_⟩
  · unfold shiftEarlier
    exact List.mem_map_of_mem _ h
  · split <;> rfl
  · split <;> rfl

theorem fixLoop_broken_mono (m : List (Str × Str)) (f : Str) :
    ∀ (fuel : Nat) (ls : List MdLink) (st : FixState),
      ∀ e ∈ st.broken, e ∈ (fixLoop m f fuel ls st).broken := by
  intro fuel
  induction fuel with
  | zero => intro ls st e he; exact he
  | succ fuel ih =>
    intro ls st e he
    match ls with
    | [] => exact he
    | l :: rest =>
      rw [fixLoop]
      by_cases hskip : skipRelMd l.url
      · rw [if_pos hskip]
        exact ih rest st e he
      · rw [if_neg hskip]
        rcases heq : lookupStr m l.url with _ | target
      
        · exact ih rest _ e (List.mem_append_left _ he)
        · exact ih _ _ e he

theorem fixLoop_broken_complete (m : List (Str × Str)) (f : Str) :
    ∀ (fuel : Nat) (ls : List MdLink) (st : FixState), ls.length ≤ fuel →
      ∀ url text, (∃ l ∈ ls, l.url = url ∧ l.text = text) → ¬ skipRelMd url →
        lookupStr m url = none → (url, text) ∈ (fixLoop m f fuel ls st).broken := by
  intro fuel
  induction fuel with
  | zero =>
    intro ls st hlen url text hex _ _
    match ls with
    | [] =>
      obtain ⟨l, hl, -⟩ := hex
      exact absurd hl (List.not_mem_nil l)
    | x :: xs => simp at hlen
  | succ fuel ih =>
    intro ls st hlen url text hex hns hlk
    match ls with
    | [] =>
      obtain ⟨l, hl, -⟩ := hex
      exact absurd hl (List.not_mem_nil l)
    | l :: rest =>
      rw [fixLoop]
      simp only [List.length_cons, Nat.add_le_add_iff_right] at hlen
      obtain ⟨l2, hl2, hu, ht⟩ := hex
      by_cases hskip : skipRelMd l.url
      · rw [if_pos hskip]
        rcases List.mem_cons.mp hl2 with rfl | hl2
        · exact absurd (hu ▸ hskip) hns
        · exact ih rest st hlen url text ⟨l2, hl2, hu, ht⟩ hns hlk
      · rw [if_neg hskip]
        rcases heq : lookupStr m l.url with _ | target
        · rcases List.mem_cons.mp hl2 with rfl | hl2
          · apply fixLoop_broken_mono
            rw [← hu, ← ht]
            exact List.mem_append_right _ (by simp)
          · exact ih rest _ hlen url text ⟨l2, hl2, hu, ht⟩ hns hlk
        · rcases List.mem_cons.mp hl2 with rfl | hl2
          · rw [hu] at heq
            rw [heq] at hlk
            exact absurd hlk (by simp)
          · obtain ⟨l3, hl3, hu3, ht3⟩ := shiftEarlier_witness l.start
              ((relFor f target).length - (pySlice st.content l.start l.stop).length)
              rest l2 hl2
            refine ih _ _ ?_ url text ⟨l3, hl3, hu3.trans hu, ht3.trans ht⟩ hns hlk
            simp only [shiftEarlier, List.length_map]
            exact hlen

theorem fixLoop_updated_mono (m : List (Str × Str)) (f : Str) :
    ∀ (fuel : Nat) (ls : List MdLink) (st : FixState), st.updated = true →
      (fixLoop m f fuel ls st).updated = true := by
  intro fuel
  induction fuel with
  | zero => intro ls st h; exact h
  | succ fuel ih =>
    intro ls st h
    match ls with
    | [] => exact h
    | l :: rest =>
      rw [fixLoop]
      by_cases hskip : skipRelMd l.url
      · rw [if_pos hskip]
        exact ih rest st h
      · rw [if_neg hskip]
        rcases heq : lookupStr m l.url with _ | target
        · exact ih rest _ h
        · exact ih _ _ rfl

theorem fixLoop_updated_false (m : List (Str × Str)) (f : Str) :
    ∀ (fuel : Nat) (ls : List MdLink) (st : FixState),
      (fixLoop m f fuel ls st).updated = false →
      (fixLoop m f fuel ls st).content = st.content ∧
        (fixLoop m f fuel ls st).fixed = st.fixed := by
  intro fuel
  induction fuel with
  | zero => intro ls st _; exact ⟨rfl, rfl⟩
  | succ fuel ih =>
    intro ls st h
    match ls with
    | [] => exact ⟨rfl, rfl⟩
    | l :: rest =>
      rw [fixLoop] at h ⊢
      by_cases hskip : skipRelMd l.url
      · rw [if_pos hskip] at h ⊢
        exact ih rest st h
      · rw [if_neg hskip] at h ⊢
        rcases heq : lookupStr m l.url with _ | target
        · rw [heq] at h
          exact ih rest _ h
        · rw [heq] at h
          have h2 := fixLoop_updated_mono m f fuel
            (shiftEarlier l.start
              ((relFor f target).length - (pySlice st.content l.start l.stop).length)
              rest)
            ⟨pySpliceAt st.content l.start l.stop (relFor f target),
              st.fixed ++ [(l.url, relFor f target)], st.broken, true⟩ rfl
          rw [h] at h2
          exact absurd h2 (by simp)

theorem fixLoop_fixed_of_updated (m : List (Str × Str)) (f : Str) :
    ∀ (fuel : Nat) (ls : List MdLink) (st : FixState),
      (st.updated = true → st.fixed ≠ []) →
      (fixLoop m f fuel ls st).updated = true →
      (fixLoop m f fuel ls st).fixed ≠ [] := by
  intro fuel
  induction fuel with
  | zero => intro ls st hst h; exact hst h
  | succ fuel ih =>
    intro ls st hst h
    match ls with
    | [] => exact hst h
    | l :: rest =>
      rw [fixLoop] at h ⊢
      by_cases hskip : skipRelMd l.url
      · rw [if_pos hskip] at h ⊢
        exact ih rest st hst h
      · rw [if_neg hskip] at h ⊢
        rcases heq : lookupStr m l.url with _ | target
        · rw [heq] at h
          exact ih rest _ hst h
        · rw [heq] at h
          exact ih _ _ (fun _ => by simp) h

theorem mem_insertDesc (l x : MdLink) (ls : List MdLink) (h : x ∈ ls) :
    x ∈ insertDesc l ls := by
  induction ls with
  | nil => exact absurd h (List.not_mem_nil x)
  | cons y ys ih =>
    rw [insertDesc]
    split
    · exact List.mem_cons_of_mem l h
    · rcases List.mem_cons.mp h with rfl | h
      · exact List.mem_cons_self x _
      · exact List.mem_cons_of_mem y (ih h)

theorem self_mem_insertDesc (l : MdLink) (ls : List MdLink) :
    l ∈ insertDesc l ls := by
  induction ls with
  | nil => exact List.mem_cons_self l []
  | cons y ys ih =>
    rw [insertDesc]
    split
    · exact List.mem_cons_self l _
    · exact List.mem_cons_of_mem y ih

theorem mem_sortLinksDesc (ls : List MdLink) (l : MdLink) (h : l ∈ ls) :
    l ∈ sortLinksDesc ls := by
  induction ls with
  | nil => exact absurd h (List.not_mem_nil l)
  | cons y ys ih =>
    rw [sortLinksDesc]
    rcases List.mem_cons.mp h with rfl | h
    · exact self_mem_insertDesc l _
    · exact mem_insertDesc y l _ (ih h)

theorem scheme_of_dotSlash (t : Str) : (parseUrl ('.' :: '/' :: t)).scheme = [] := by
  show (extractScheme ('.' :: '/' :: t)).1 = []
  unfold extractScheme
  have h1 : List.takeWhile (fun c => isSchemeChar c) ('.' :: '/' :: t) = ['.'] := by
    rw [List.takeWhile_cons, if_pos (show (fun c => isSchemeChar c) '.' = true by decide),
      List.takeWhile_cons, if_neg (show ¬ (fun c => isSchemeChar c) '/' = true by decide)]
  rw [h1]
  rfl

/-- An image link (target under `./images/`) can never carry an `http`
scheme, so the image skip and the external classification never compete. -/
theorem isHttpScheme_image (u : Str) (h : "./images/".data.isPrefixOf u = true) :
    isHttpScheme u = false := by
  have hpre : "./images/".data <+: u := List.isPrefixOf_iff_prefix.mp h
  obtain ⟨t, rfl⟩ := hpre
  show isHttpScheme ('.' :: '/' :: ("images/".data ++ t)) = false
  unfold isHttpScheme
  rw [scheme_of_dotSlash]
  decide

theorem classifyLinks_all_external (ls : List MdLink)
    (h : ∀ l ∈ ls, isHttpScheme l.url = true) :
    classifyLinks ls = ([], ls.map (fun l => (l.url, l.text))) := by
  induction ls with
  | nil => rfl
  | cons l rest ih =>
    have hl := h l (List.mem_cons_self l rest)
    rw [classifyLinks]
    rw [if_neg (by
      intro himg
      rw [isHttpScheme_image l.url (by simpa using himg)] at hl
      exact Bool.noConfusion hl)]
    rw [if_pos (by simp [hl])]
    rw [ih (fun x hx => h x (List.mem_cons_of_mem l hx))]
    rfl

/-- The spec's two-adjacent-mapped-links scenario. -/
def c8Doc : Str := "[A](http://site/x)[B](http://site/y)".data

def c8Map : List (Str × Str) :=
  [("http://site/x".data, "pages/x.md".data),
   ("http://site/y".data, "pages/y.md".data)]

/-- C8: the claim that the rewrite pass replaces both targets of
`[A](http://site/x)[B](http://site/y)` when both are present in `pages_map`
is false: targets with an `http`/`https` scheme are classified external and
left untouched, so zero replacements happen and the document is written back
unchanged (in fact not written at all). -/
theorem c8_link_rewrite_counterexample :
    lookupStr c8Map "http://site/x".data = some "pages/x.md".data ∧
    lookupStr c8Map "http://site/y".data = some "pages/y.md".data ∧
    (fixInternalLinks c8Map "doc.md".data c8Doc).fixed = [] ∧
    writtenBack c8Map "doc.md".data c8Doc = c8Doc ∧
    (classifyLinks (findLinks c8Doc)).2 =
      [("http://site/x".data, "A".data), ("http://site/y".data, "B".data)] := by
  decide

/-- C8 (amended): every link whose target carries an `http`/`https` scheme is
recorded as external and left byte-for-byte untouched regardless of
`pages_map`; a document whose links are all external sees zero replacements
and is not rewritten. -/
theorem c8_link_rewrite_amended (pagesMap : List (Str × Str)) (f content : Str)
    (h : ∀ l ∈ findLinks content, isHttpScheme l.url = true) :
    (fixInternalLinks pagesMap f content).content = content ∧
    (fixInternalLinks pagesMap f content).fixed = [] ∧
    writtenBack pagesMap f content = content ∧
    (classifyLinks (findLinks content)).2
      = (findLinks content).map (fun l => (l.url, l.text)) := by
  have hc := classifyLinks_all_external (findLinks content) h
  have hfix : fixInternalLinks pagesMap f content = ⟨content, [], [], false⟩ := by
    unfold fixInternalLinks
    rw [hc]
    rfl
  refine ⟨by rw [hfix], by rw [hfix], ?_, by rw [hc]⟩
  unfold writtenBack
  rw [hfix]
  rfl

/-- C8 amended-claim witness: the scenario document itself. -/
theorem c8_link_rewrite_amended_witness :
    (∀ l ∈ findLinks c8Doc, isHttpScheme l.url = true) ∧
    writtenBack c8Map "doc.md".data c8Doc = c8Doc := by
  have h := c8_link_rewrite_amended c8Map "doc.md".data c8Doc (by decide)
  exact ⟨by decide, h.2.2.1⟩

/-- A document with two mapped schemeless links around a broken one, the
later replacement longer than its target. -/
def c9Doc : Str := "[A](ax)[C](cc)[B](by)".data

def c9Map : List (Str × Str) :=
  [("ax".data, "aa.md".data), ("by".data, "b123456.md".data)]

/-- C9: the claim that a broken link's text is byte-for-byte unchanged by the
rewrite pass is false: the pass shifts the stored end offsets of *earlier*
links after each replacement although earlier spans are unaffected by a later
edit, so once the length-changing replacement of `by` has run, the splice for
`ax` cuts into the following text and the broken link `[C](cc)` — duly
reported as broken — is destroyed in the written-back document. -/
theorem c9_broken_link_corrupted_counterexample :
    ("cc".data, "C".data) ∈ (fixInternalLinks c9Map "doc.md".data c9Doc).broken ∧
    "[C](cc)".data <:+: c9Doc ∧
    ¬ "[C](cc)".data <:+: writtenBack c9Map "doc.md".data c9Doc := by
  decide

/-- C9 (amended): every internal link (schemeless, not an image link, not an
already-relative `.md` link) whose target is absent from `pages_map` is
reported in the broken-links list; a document is written back only when at
least one replacement occurred; and when no replacement occurred the document
— hence every broken link in it — is byte-for-byte unchanged.  (When
replacements do occur, the faulty offset shifting can corrupt earlier link
occurrences, as the counterexample shows.) -/
theorem c9_broken_links_amended (pagesMap : List (Str × Str)) (f content : Str) :
    (∀ url text,
      (∃ l ∈ (classifyLinks (findLinks content)).1, l.url = url ∧ l.text = text) →
      ¬ skipRelMd url → lookupStr pagesMap url = none →
      (url, text) ∈ (fixInternalLinks pagesMap f content).broken) ∧
    ((fixInternalLinks pagesMap f content).updated = true →
      (fixInternalLinks pagesMap f content).fixed ≠ []) ∧
    ((fixInternalLinks pagesMap f content).updated = false →
      writtenBack pagesMap f content = content ∧
      (fixInternalLinks pagesMap f content).fixed = []) := by
  refine ⟨?_, ?_, ?_⟩
  · intro url text hex hns hlk
    obtain ⟨l, hl, hu, ht⟩ := hex
    exact fixLoop_broken_complete pagesMap f _ _ _ (le_refl _) url text
      ⟨l, mem_sortLinksDesc _ l hl, hu, ht⟩ hns hlk
  · intro h
    exact fixLoop_fixed_of_updated pagesMap f _ _ _
      (fun hh => absurd hh (by simp)) h
  · intro h
    have h2 := fixLoop_updated_false pagesMap f _ _ _ h
    refine ⟨?_, h2.2⟩
    unfold writtenBack
    rw [h]
    rfl

/-- C9 amended-claim witness: a single broken internal link in an unmapped
document. -/
theorem c9_broken_links_amended_witness :
    (∃ l ∈ (classifyLinks (findLinks "[C](cc)".data)).1,
      l.url = "cc".data ∧ l.text = "C".data) ∧
    ¬ skipRelMd "cc".data ∧
    lookupStr [] "cc".data = none ∧
    ("cc".data, "C".data) ∈
      (fixInternalLinks [] "doc.md".data "[C](cc)".data).broken ∧
    (fixInternalLinks [] "doc.md".data "[C](cc)".data).updated = false ∧
    writtenBack [] "doc.md".data "[C](cc)".data = "[C](cc)".data := by
  have h := c9_broken_links_amended [] "doc.md".data "[C](cc)".data
  refine ⟨by decide, by decide, rfl, ?_, by decide, ?_⟩
  · exact h.1 "cc".data "C".data (by decide) (by decide) rfl
  · exact (h.2.2 (by decide)).1

end WebsiteDownloader